import Mathlib

/-!
Shallow embedding of `src/libextra/bitv.rs` (bit-packed boolean vector and
derived integer set).  `uint` is modelled as `Nat`; the word width is fixed to
64 bits (the target's `uint::bits`).  Bitwise operations on words never
overflow, so they are translated directly; the places where the source relies
on wrap-around `uint` arithmetic (the `(1 << nbits) - 1` mask and the
`size += nbits(new) - nbits(old)` update in `BitvSet::other_op`) are modelled
with an explicit `% 2 ^ 64`.  Fallible paths (the `die()` call and `assert_eq!`
in binary vector operations, the out-of-bounds indexing in `Clone`) are
modelled with `Option`.
-/

/-- Number of bits in a machine word (`uint::bits` on a 64-bit target). -/
def wordBits : Nat := 64

/-- One more than the largest `uint` value: `2 ^ 64`. -/
def wordMod : Nat := 2 ^ wordBits

/-- Bitwise complement `!x` on a 64-bit `uint`, as xor with the all-ones word. -/
def ucompl (x : Nat) : Nat := (wordMod - 1) ^^^ x

/-- State of the compact representation: a single word.  Only the lowest
`nbits` bits are defined; the rest is undefined (from `struct SmallBitv`). -/
structure SmallBitv where
  bits : Nat

/-- Mask with a 1 for each defined bit in a `SmallBitv`, assuming `n` bits:
`(1 << nbits) - 1` in wrap-around `uint` arithmetic (from `fn small_mask`). -/
def small_mask (nbits : Nat) : Nat :=
  ((1 <<< nbits) % wordMod + (wordMod - 1)) % wordMod

/-- Generic masked binary operator on the compact representation (from
`SmallBitv::bits_op`): stores `f old right` unmasked and reports whether the
masked view changed. -/
def SmallBitv.bits_op (s : SmallBitv) (right_bits nbits : Nat)
    (f : Nat → Nat → Nat) : SmallBitv × Bool :=
  let mask := small_mask nbits
  let old_b := s.bits
  let new_b := f old_b right_bits
  (⟨new_b⟩, mask &&& old_b != mask &&& new_b)

/-- Compact union (from `SmallBitv::union`). -/
def SmallBitv.union (s : SmallBitv) (s1 : SmallBitv) (nbits : Nat) :
    SmallBitv × Bool :=
  s.bits_op s1.bits nbits (fun u1 u2 => u1 ||| u2)

/-- Compact intersection (from `SmallBitv::intersect`). -/
def SmallBitv.intersect (s : SmallBitv) (s1 : SmallBitv) (nbits : Nat) :
    SmallBitv × Bool :=
  s.bits_op s1.bits nbits (fun u1 u2 => u1 &&& u2)

/-- Compact assignment (from `SmallBitv::become`). -/
def SmallBitv.become (s : SmallBitv) (s1 : SmallBitv) (nbits : Nat) :
    SmallBitv × Bool :=
  s.bits_op s1.bits nbits (fun _u1 u2 => u2)

/-- Compact difference (from `SmallBitv::difference`). -/
def SmallBitv.difference (s : SmallBitv) (s1 : SmallBitv) (nbits : Nat) :
    SmallBitv × Bool :=
  s.bits_op s1.bits nbits (fun u1 u2 => u1 &&& ucompl u2)

/-- Compact bit read (from `SmallBitv::get`): `(bits & (1 << i)) != 0`. -/
def SmallBitv.get (s : SmallBitv) (i : Nat) : Bool :=
  (s.bits &&& (1 <<< i)) != 0

/-- Compact bit write (from `SmallBitv::set`). -/
def SmallBitv.set (s : SmallBitv) (i : Nat) (x : Bool) : SmallBitv :=
  if x then ⟨s.bits ||| (1 <<< i)⟩ else ⟨s.bits &&& ucompl (1 <<< i)⟩

/-- Compact masked equality (from `SmallBitv::equals`). -/
def SmallBitv.equals (s b : SmallBitv) (nbits : Nat) : Bool :=
  let mask := small_mask nbits
  mask &&& s.bits == mask &&& b.bits

/-- State of the expanded representation: an ordered word array (from
`struct BigBitv`). -/
structure BigBitv where
  storage : List Nat

/-- Number of words needed for `nbits` bits:
`nbits/uint::bits + if nbits % uint::bits == 0 {0} else {1}` (computed inside
`big_mask` and `Bitv::new`). -/
def nelems (nbits : Nat) : Nat :=
  nbits / wordBits + if nbits % wordBits = 0 then 0 else 1

/-- Mask with a 1 for each defined bit in the `elem`-th word of a `BigBitv`,
assuming `nbits` bits (from `fn big_mask`). -/
def big_mask (nbits elem : Nat) : Nat :=
  let rmd := nbits % wordBits
  let nelems := nbits / wordBits + if rmd = 0 then 0 else 1
  if elem < nelems - 1 ∨ rmd = 0 then wordMod - 1 else (1 <<< rmd) - 1

/-- Word-by-word loop body of `BigBitv::process`, carried out on the two word
arrays with the running word index; returns the updated array and the changed
flag.  Each word is masked, combined with `op`, re-masked, and written back
only when the masked value changed. -/
def processAux (nbits : Nat) (op : Nat → Nat → Nat) :
    Nat → List Nat → List Nat → List Nat × Bool
  | _, [], _ => ([], false)
  | _, w :: ws, [] => (w :: ws, false)
  | i, w :: ws, v :: vs =>
    let mask := big_mask nbits i
    let w0 := w &&& mask
    let w1 := v &&& mask
    let nw := op w0 w1 &&& mask
    let r := processAux nbits op (i + 1) ws vs
    if w0 = nw then (w :: r.1, r.2) else (nw :: r.1, true)

/-- Expanded generic binary operator (from `BigBitv::process`): the
`assert_eq!(self.storage.len(), len)` precondition failure is modelled as
`none`. -/
def BigBitv.process (s b : BigBitv) (nbits : Nat) (op : Nat → Nat → Nat) :
    Option (BigBitv × Bool) :=
  if s.storage.length = b.storage.length then
    let r := processAux nbits op 0 s.storage b.storage
    some (⟨r.1⟩, r.2)
  else
    none

/-- Expanded union (from `BigBitv::union`). -/
def BigBitv.union (s b : BigBitv) (nbits : Nat) : Option (BigBitv × Bool) :=
  s.process b nbits (fun w1 w2 => w1 ||| w2)

/-- Expanded intersection (from `BigBitv::intersect`). -/
def BigBitv.intersect (s b : BigBitv) (nbits : Nat) : Option (BigBitv × Bool) :=
  s.process b nbits (fun w1 w2 => w1 &&& w2)

/-- Expanded assignment (from `BigBitv::become`). -/
def BigBitv.become (s b : BigBitv) (nbits : Nat) : Option (BigBitv × Bool) :=
  s.process b nbits (fun _ w => w)

/-- Expanded difference (from `BigBitv::difference`). -/
def BigBitv.difference (s b : BigBitv) (nbits : Nat) : Option (BigBitv × Bool) :=
  s.process b nbits (fun w1 w2 => w1 &&& ucompl w2)

/-- Expanded bit read (from `BigBitv::get`): `1 & (storage[i/bits] >> i%bits)`.
The source indexing panics out of range; every use in the claims is in range,
so the word is read with default `0`. -/
def BigBitv.get (s : BigBitv) (i : Nat) : Bool :=
  let w := i / wordBits
  let b := i % wordBits
  let x := 1 &&& (s.storage.getD w 0 >>> b)
  x == 1

/-- Expanded bit write (from `BigBitv::set`). -/
def BigBitv.set (s : BigBitv) (i : Nat) (x : Bool) : BigBitv :=
  let w := i / wordBits
  let b := i % wordBits
  let flag := 1 <<< b
  ⟨s.storage.set w
    (if x then s.storage.getD w 0 ||| flag
     else s.storage.getD w 0 &&& ucompl flag)⟩

/-- Expanded masked equality (from `BigBitv::equals`): the source loops over
`b.storage`'s indices with early return on the first masked mismatch. -/
def BigBitv.equals (s b : BigBitv) (nbits : Nat) : Bool :=
  (List.range b.storage.length).all fun i =>
    big_mask nbits i &&& s.storage.getD i 0 ==
      big_mask nbits i &&& b.storage.getD i 0

/-- Tagged representation of a bit vector (from `enum BitvVariant`). -/
inductive BitvVariant where
  | Big : BigBitv → BitvVariant
  | Small : SmallBitv → BitvVariant

/-- Operation selector for `do_op` (from `enum Op`). -/
inductive Op where
  | Union : Op
  | Intersect : Op
  | Assign : Op
  | Difference : Op

/-- The bit vector type (from `pub struct Bitv`). -/
structure Bitv where
  rep : BitvVariant
  nbits : Nat

/-- Dispatch of a binary operation (from `Bitv::do_op`).  The fatal `die()`
("Tried to do operation on bit vectors with different sizes") on a length or
representation-kind mismatch, and the `assert_eq!` inside `BigBitv::process`,
are modelled as `none`. -/
def Bitv.do_op (b1 : Bitv) (op : Op) (b2 : Bitv) : Option (Bitv × Bool) :=
  if b1.nbits ≠ b2.nbits then none
  else
    match b1.rep, b2.rep with
    | BitvVariant.Small s, BitvVariant.Small s1 =>
      let r :=
        match op with
        | Op.Union => s.union s1 b1.nbits
        | Op.Intersect => s.intersect s1 b1.nbits
        | Op.Assign => s.become s1 b1.nbits
        | Op.Difference => s.difference s1 b1.nbits
      some (⟨BitvVariant.Small r.1, b1.nbits⟩, r.2)
    | BitvVariant.Small _, BitvVariant.Big _ => none
    | BitvVariant.Big _, BitvVariant.Small _ => none
    | BitvVariant.Big s, BitvVariant.Big s1 =>
      let r :=
        match op with
        | Op.Union => s.union s1 b1.nbits
        | Op.Intersect => s.intersect s1 b1.nbits
        | Op.Assign => s.become s1 b1.nbits
        | Op.Difference => s.difference s1 b1.nbits
      r.map fun p => (⟨BitvVariant.Big p.1, b1.nbits⟩, p.2)

/-- Construction (from `Bitv::new`): compact iff `nbits <= uint::bits`,
otherwise expanded with `nelems` words, filled with all-zeros or all-ones. -/
def Bitv.new (nbits : Nat) (init : Bool) : Bitv :=
  if nbits ≤ wordBits then
    ⟨BitvVariant.Small ⟨if init then wordMod - 1 else 0⟩, nbits⟩
  else
    ⟨BitvVariant.Big ⟨List.replicate (nelems nbits)
      (if init then wordMod - 1 else 0)⟩, nbits⟩

/-- Union of two bit vectors (from `Bitv::union`). -/
def Bitv.union (b1 b2 : Bitv) : Option (Bitv × Bool) := b1.do_op Op.Union b2

/-- Intersection of two bit vectors (from `Bitv::intersect`). -/
def Bitv.intersect (b1 b2 : Bitv) : Option (Bitv × Bool) :=
  b1.do_op Op.Intersect b2

/-- Assignment of one bit vector to another (from `Bitv::assign`). -/
def Bitv.assign (b1 b2 : Bitv) : Option (Bitv × Bool) := b1.do_op Op.Assign b2

/-- Difference of two bit vectors (from `Bitv::difference`). -/
def Bitv.difference (b1 b2 : Bitv) : Option (Bitv × Bool) :=
  b1.do_op Op.Difference b2

/-- Bit read on a bit vector (from `Bitv::get`; the source asserts
`i < nbits`, and every use below is within that range). -/
def Bitv.get (b : Bitv) (i : Nat) : Bool :=
  match b.rep with
  | BitvVariant.Big bb => bb.get i
  | BitvVariant.Small s => s.get i

/-- Bit write on a bit vector (from `Bitv::set`; the source asserts
`i < nbits`, and every use below is within that range). -/
def Bitv.set (b : Bitv) (i : Nat) (x : Bool) : Bitv :=
  match b.rep with
  | BitvVariant.Big bb => ⟨BitvVariant.Big (bb.set i x), b.nbits⟩
  | BitvVariant.Small s => ⟨BitvVariant.Small (s.set i x), b.nbits⟩

/-- Structural equality of two bit vectors (from `Bitv::equal`): immediately
`false` on a length mismatch or a representation-kind mismatch, otherwise
masked representation equality. -/
def Bitv.equal (b1 b2 : Bitv) : Bool :=
  if b1.nbits ≠ b2.nbits then false
  else
    match b1.rep, b2.rep with
    | BitvVariant.Small s, BitvVariant.Small s1 => s.equals s1 b1.nbits
    | BitvVariant.Small _, BitvVariant.Big _ => false
    | BitvVariant.Big s, BitvVariant.Big s1 => s.equals s1 b1.nbits
    | BitvVariant.Big _, BitvVariant.Small _ => false

/-- One contribution to a serialized byte (from the local `fn bit` inside
`Bitv::to_bytes`): logical bit `byte*8 + bit` shifted to position `7 - bit`,
or `0` beyond `nbits`. -/
def Bitv.byteBit (bv : Bitv) (byte bit : Nat) : Nat :=
  let offset := byte * 8 + bit
  if bv.nbits ≤ offset then 0
  else (if bv.get offset then 1 else 0) <<< (7 - bit)

/-- Byte serialization (from `Bitv::to_bytes`): `ceil(nbits/8)` bytes, most
significant bit of each byte first. -/
def Bitv.to_bytes (bv : Bitv) : List Nat :=
  let len := bv.nbits / 8 + if bv.nbits % 8 = 0 then 0 else 1
  (List.range len).map fun i =>
    bv.byteBit i 0 ||| bv.byteBit i 1 ||| bv.byteBit i 2 ||| bv.byteBit i 3 |||
      bv.byteBit i 4 ||| bv.byteBit i 5 ||| bv.byteBit i 6 ||| bv.byteBit i 7

/-- Generator-based construction (from `pub fn from_fn`): start from an
all-false vector and set every index in ascending order. -/
def from_fn (len : Nat) (f : Nat → Bool) : Bitv :=
  (List.range len).foldl (fun bitv i => bitv.set i (f i)) (Bitv.new len false)

/-- Byte deserialization (from `pub fn from_bytes`): bit `i` is bit
`7 - i % 8` of byte `i / 8`. -/
def from_bytes (bytes : List Nat) : Bitv :=
  from_fn (bytes.length * 8) fun i =>
    (bytes.getD (i / 8) 0 >>> (7 - i % 8)) &&& 1 == 1

/-- Copy of a bit vector (from `impl Clone for Bitv`).  In the expanded case
the source allocates `nbits/uint::bits + 1` words and copies that many words
from `storage`; when that count exceeds `storage.len()` the read
`b.storage[i]` is out of bounds, a fatal failure modelled as `none`. -/
def Bitv.clone (b : Bitv) : Option Bitv :=
  match b.rep with
  | BitvVariant.Small s => some ⟨BitvVariant.Small ⟨s.bits⟩, b.nbits⟩
  | BitvVariant.Big bb =>
    let len := b.nbits / wordBits + 1
    if len ≤ bb.storage.length then
      some ⟨BitvVariant.Big ⟨bb.storage.take len⟩, b.nbits⟩
    else none

/-- Per-word population count (from the local `fn nbits` inside
`BitvSet::other_op`): one iteration per word bit, summing the low bit and
shifting.  The `w == 0` early break does not change the result. -/
def countBits : Nat → Nat → Nat
  | 0, _ => 0
  | k + 1, w => (w &&& 1) + countBits k (w >>> 1)

/-- Population count of one word, iterating `uint::bits` times. -/
def nbitsFn (w : Nat) : Nat := countBits wordBits w

/-- Modelled from the spec: `vec::grow` as used by `BitvSet::insert` and
`BitvSet::other_op` (the vector library is not part of the sources).  The spec
says insert must "grow storage to `max(v, capacity()*2) / WORD_BITS + 1`
words, zero-filling new words" and the set algebra must "grow `self` to match
(zero-filled)", so growth extends the array to `n` elements filled with
`x` (no-op when already at least that long). -/
def vecGrow (ws : List Nat) (n : Nat) (x : Nat) : List Nat :=
  ws ++ List.replicate (n - ws.length) x

/-- Final index of the truncation loop in `BitvSet::remove`
(`while i > 1 && storage[i-1] == 0 { i -= 1 }`), starting from the second
argument. -/
def shrinkIdx (ws : List Nat) : Nat → Nat
  | 0 => 0
  | 1 => 1
  | n + 2 => if ws.getD (n + 1) 0 = 0 then shrinkIdx ws (n + 1) else n + 2

/-- The growable bit set (from `pub struct BitvSet`): a cached population
count plus a `BigBitv` word array. -/
structure BitvSet where
  size : Nat
  bitv : BigBitv

/-- Empty set (from `BitvSet::new`): one zero word, size 0. -/
def BitvSet.new : BitvSet := ⟨0, ⟨[0]⟩⟩

/-- Logical ones count of a bit vector, as traversed by `Bitv::ones`
(every index below `nbits` whose bit is set). -/
def Bitv.onesCnt (b : Bitv) : Nat :=
  ((List.range b.nbits).filter fun i => b.get i).length

/-- Underlying word array of a bit vector as taken over by
`BitvSet::from_bitv`: the `BigBitv` storage, or the single compact word. -/
def Bitv.storageWords (b : Bitv) : List Nat :=
  match b.rep with
  | BitvVariant.Big bb => bb.storage
  | BitvVariant.Small s => [s.bits]

/-- Set construction from a bit vector (from `BitvSet::from_bitv`): count the
logical ones (a `uint` accumulation, hence `% 2^64`) and take ownership of the
raw word storage. -/
def BitvSet.from_bitv (b : Bitv) : BitvSet :=
  ⟨b.onesCnt % wordMod, ⟨b.storageWords⟩⟩

/-- Capacity in bits (from `BitvSet::capacity`):
`storage.len() * uint::bits`.  The `uint` multiplication is translated
exactly; its overflow would need at least `2^58` stored words. -/
def BitvSet.capacity (s : BitvSet) : Nat := s.bitv.storage.length * wordBits

/-- Consume a set into a bit vector (from `BitvSet::unwrap`): `nbits` is the
full capacity. -/
def BitvSet.unwrap (s : BitvSet) : Bitv := ⟨BitvVariant.Big s.bitv, s.capacity⟩

/-- Membership test (from the `Set` impl's `contains`):
`v < storage.len() * uint::bits && bit v is set`. -/
def BitvSet.contains (s : BitvSet) (v : Nat) : Bool :=
  decide (v < s.bitv.storage.length * wordBits) && s.bitv.get v

/-- Insertion (from the `Set` impl's `insert`): no-op on a present key, else
grow to `max(v, capacity()*2)/uint::bits + 1` words when `v` is out of range,
bump `size` (a `uint`, hence `% 2^64`), and set the bit. -/
def BitvSet.insert (s : BitvSet) (v : Nat) : BitvSet × Bool :=
  if s.contains v then (s, false)
  else
    let nbits := s.capacity
    let st :=
      if nbits ≤ v then
        let newsize := max v (nbits * 2) / wordBits + 1
        vecGrow s.bitv.storage newsize 0
      else s.bitv.storage
    (⟨(s.size + 1) % wordMod, BigBitv.set ⟨st⟩ v true⟩, true)

/-- Removal (from the `Set` impl's `remove`): no-op on an absent key, else
decrement `size` (a `uint`, wrap-around), clear the bit, and truncate trailing
all-zero words, never below one word. -/
def BitvSet.remove (s : BitvSet) (v : Nat) : BitvSet × Bool :=
  if !s.contains v then (s, false)
  else
    let size' := (s.size + (wordMod - 1)) % wordMod
    let st := s.bitv.set v false
    let i := shrinkIdx st.storage st.storage.length
    (⟨size', ⟨st.storage.take i⟩⟩, true)

/-- Word loop of the in-place set algebra (from the loop inside
`BitvSet::other_op`): combine each word of `other` into `self` and adjust the
running size by `nbits(new) - nbits(old)` in wrap-around `uint` arithmetic. -/
def otherOpAux (f : Nat → Nat → Nat) :
    List Nat → List Nat → Nat → List Nat × Nat
  | ws, [], size => (ws, size)
  | [], _ :: _, size => ([], size)
  | w :: ws, v :: vs, size =>
    let nw := f w v
    let d := (nbitsFn nw + (wordMod - nbitsFn w)) % wordMod
    let r := otherOpAux f ws vs ((size + d) % wordMod)
    (nw :: r.1, r.2)

/-- In-place set algebra driver (from `BitvSet::other_op`): grow `self` to
`other`'s capacity when smaller, then combine word by word. -/
def BitvSet.other_op (s other : BitvSet) (f : Nat → Nat → Nat) : BitvSet :=
  let st :=
    if s.capacity < other.capacity then
      vecGrow s.bitv.storage (other.capacity / wordBits) 0
    else s.bitv.storage
  let r := otherOpAux f st other.bitv.storage s.size
  ⟨r.2, ⟨r.1⟩⟩

/-- In-place union (from `BitvSet::union_with`). -/
def BitvSet.union_with (s other : BitvSet) : BitvSet :=
  s.other_op other fun w1 w2 => w1 ||| w2

/-- In-place intersection (from `BitvSet::intersect_with`). -/
def BitvSet.intersect_with (s other : BitvSet) : BitvSet :=
  s.other_op other fun w1 w2 => w1 &&& w2

/-- In-place difference (from `BitvSet::difference_with`). -/
def BitvSet.difference_with (s other : BitvSet) : BitvSet :=
  s.other_op other fun w1 w2 => w1 &&& ucompl w2

/-- In-place symmetric difference (from `BitvSet::symmetric_difference_with`). -/
def BitvSet.symmetric_difference_with (s other : BitvSet) : BitvSet :=
  s.other_op other fun w1 w2 => w1 ^^^ w2

/-- Set clear (from the `Mutable` impl's `clear`): zero every storage word,
reset `size`. -/
def BitvSet.clear (s : BitvSet) : BitvSet :=
  ⟨0, ⟨s.bitv.storage.map fun _ => 0⟩⟩

/-- Cached element count (from the `Container` impl's `len`). -/
def BitvSet.len (s : BitvSet) : Nat := s.size

/-- Total population count of a word array (counting, per word, the low
`uint::bits` bits as the code's own popcount loop does). -/
def popcountTotal (ws : List Nat) : Nat := (ws.map nbitsFn).sum

/-- Well-formedness of a bit vector as established by its constructors:
compact holds at most one word of bits, expanded has exactly `nelems nbits`
storage words. -/
def Bitv.wf (b : Bitv) : Prop :=
  match b.rep with
  | BitvVariant.Small _ => b.nbits ≤ wordBits
  | BitvVariant.Big bb => bb.storage.length = nelems b.nbits

/-- A bit vector is tail-clean when the raw popcount of its word storage
equals its logical ones count, i.e. no undefined bit beyond `nbits` is set. -/
def Bitv.tailClean (b : Bitv) : Prop :=
  popcountTotal b.storageWords = b.onesCnt

/-- Growable bit sets reachable by the public `BitvSet` operations, with
`from_bitv` restricted to tail-clean bit vectors. -/
inductive ReachableSet : BitvSet → Prop where
  | new : ReachableSet BitvSet.new
  | from_bitv (b : Bitv) (h : b.tailClean) : ReachableSet (BitvSet.from_bitv b)
  | insert (s : BitvSet) (v : Nat) (h : ReachableSet s) :
      ReachableSet (s.insert v).1
  | remove (s : BitvSet) (v : Nat) (h : ReachableSet s) :
      ReachableSet (s.remove v).1
  | union_with (s other : BitvSet) (h : ReachableSet s) :
      ReachableSet (s.union_with other)
  | intersect_with (s other : BitvSet) (h : ReachableSet s) :
      ReachableSet (s.intersect_with other)
  | difference_with (s other : BitvSet) (h : ReachableSet s) :
      ReachableSet (s.difference_with other)
  | symmetric_difference_with (s other : BitvSet) (h : ReachableSet s) :
      ReachableSet (s.symmetric_difference_with other)
  | clear (s : BitvSet) (h : ReachableSet s) : ReachableSet s.clear

/-- Word-level function selected by each `Op`, exactly the four closures
passed to `bits_op`/`process` in the source (`|u1, u2| u1 | u2`, `u1 & u2`,
`|_, u2| u2`, `u1 & !u2`). -/
def Op.wordFn : Op → Nat → Nat → Nat
  | Op.Union => fun u1 u2 => u1 ||| u2
  | Op.Intersect => fun u1 u2 => u1 &&& u2
  | Op.Assign => fun _u1 u2 => u2
  | Op.Difference => fun u1 u2 => u1 &&& ucompl u2

/-- Boolean shadow of `Op.wordFn`: OR, AND, copy, AND-NOT per logical bit. -/
def Op.boolFn : Op → Bool → Bool → Bool
  | Op.Union => fun a b => a || b
  | Op.Intersect => fun a b => a && b
  | Op.Assign => fun _a b => b
  | Op.Difference => fun a b => a && !b

/-- Representation-kind discriminator of a bit vector: `true` exactly for the
compact (`Small`) representation. -/
def Bitv.isSmallRep (b : Bitv) : Bool :=
  match b.rep with
  | BitvVariant.Small _ => true
  | BitvVariant.Big _ => false

/-! Basic bit-level facts used throughout. -/

theorem wordMod_eq : wordMod = 2 ^ 64 := rfl

theorem nat_eq_iff_testBit {x y : Nat} :
    x = y ↔ ∀ i, x.testBit i = y.testBit i :=
  ⟨fun h _ => h ▸ rfl, Nat.eq_of_testBit_eq⟩

theorem beq_one_eq_decide (x : Nat) : (x == 1) = decide (x = 1) := by
  by_cases h : x = 1 <;> simp [h]

theorem bigGet_eq_testBit (ws : List Nat) (i : Nat) :
    BigBitv.get ⟨ws⟩ i = (ws.getD (i / wordBits) 0).testBit (i % wordBits) := by
  simp only [BigBitv.get, beq_one_eq_decide, Nat.one_and_eq_mod_two,
    Nat.shiftRight_eq_div_pow, Nat.testBit_to_div_mod]

theorem land_two_pow_ne_zero (x b : Nat) :
    ((x &&& (1 <<< b)) != 0) = x.testBit b := by
  rw [Nat.one_shiftLeft]
  cases h : x.testBit b with
  | true =>
    have hne : x &&& 2 ^ b ≠ 0 := by
      intro h0
      have := congrArg (fun y => y.testBit b) h0
      simp [Nat.testBit_two_pow_self, h] at this
    simp [hne]
  | false =>
    have hz : x &&& 2 ^ b = 0 := by
      apply Nat.eq_of_testBit_eq
      intro j
      rcases eq_or_ne b j with rfl | hj
      · simp [h]
      · simp [Nat.testBit_two_pow_of_ne hj]
    simp [hz]

theorem smallGet_eq_testBit (s : SmallBitv) (i : Nat) :
    s.get i = s.bits.testBit i := by
  rw [SmallBitv.get, land_two_pow_ne_zero]

theorem ucompl_testBit_lt {x p : Nat} (hp : p < wordBits) :
    (ucompl x).testBit p = !x.testBit p := by
  have h64 : (wordMod - 1).testBit p = true := by
    rw [wordMod_eq, Nat.testBit_two_pow_sub_one]
    simpa [wordBits] using hp
  simp [ucompl, Nat.testBit_xor, h64]

theorem testBit_or_two_pow (w b p : Nat) :
    (w ||| (1 <<< b)).testBit p = (w.testBit p || decide (b = p)) := by
  rw [Nat.one_shiftLeft]
  simp [Nat.testBit_or, Nat.testBit_two_pow]

theorem testBit_and_compl_two_pow {b p : Nat} (w : Nat)
    (hp : p < wordBits) :
    (w &&& ucompl (1 <<< b)).testBit p = (w.testBit p && decide (p ≠ b)) := by
  rw [Nat.testBit_and, ucompl_testBit_lt hp, Nat.one_shiftLeft]
  rcases eq_or_ne b p with rfl | hbp
  · simp [Nat.testBit_two_pow_self]
  · simp [Nat.testBit_two_pow_of_ne hbp, Ne.symm hbp]

theorem masked_eq_iff (m x y : Nat) :
    m &&& x = m &&& y ↔ ∀ p, m.testBit p = true → x.testBit p = y.testBit p := by
  constructor
  · intro h p hp
    have := congrArg (fun z => z.testBit p) h
    simpa [Nat.testBit_and, hp] using this
  · intro h
    apply Nat.eq_of_testBit_eq
    intro p
    rcases hm : m.testBit p with _ | _
    · simp [Nat.testBit_and, hm]
    · simp [Nat.testBit_and, hm, h p hm]

/-! Mask characterizations. -/

theorem small_mask_eq {nbits : Nat} (h : nbits ≤ wordBits) :
    small_mask nbits = 2 ^ nbits - 1 := by
  have hle : (2:Nat) ^ nbits ≤ 2 ^ 64 := Nat.pow_le_pow_right (by norm_num) h
  have h1 : 1 ≤ (2:Nat) ^ nbits := Nat.one_le_two_pow
  rw [small_mask, Nat.one_shiftLeft, wordMod_eq]
  generalize (2:Nat) ^ nbits = P at *
  have h64 : (2:Nat) ^ 64 = 18446744073709551616 := by norm_num
  rw [h64] at hle ⊢
  omega

theorem small_mask_testBit {nbits : Nat} (h : nbits ≤ wordBits) (p : Nat) :
    (small_mask nbits).testBit p = decide (p < nbits) := by
  rw [small_mask_eq h, Nat.testBit_two_pow_sub_one]

theorem big_mask_testBit {nbits k : Nat} (hk : k < nelems nbits) (p : Nat) :
    (big_mask nbits k).testBit p =
      decide (p < wordBits ∧ wordBits * k + p < nbits) := by
  have hall : ∀ q : Nat, (wordMod - 1).testBit q = decide (q < 64) := by
    intro q
    rw [wordMod_eq, Nat.testBit_two_pow_sub_one]
  have hk' : k < nbits / 64 + (if nbits % 64 = 0 then 0 else 1) := by
    simpa [nelems, wordBits] using hk
  simp only [big_mask, wordBits]
  by_cases hr : nbits % 64 = 0
  · rw [if_pos hr] at hk'
    rw [if_pos (Or.inr hr), hall p, decide_eq_decide]
    omega
  · rw [if_neg hr] at hk'
    rw [if_neg hr]
    by_cases hlast : k < nbits / 64 + 1 - 1
    · rw [if_pos (Or.inl hlast), hall p, decide_eq_decide]
      omega
    · rw [if_neg (not_or.mpr ⟨hlast, hr⟩), Nat.one_shiftLeft,
        Nat.testBit_two_pow_sub_one, decide_eq_decide]
      omega

/-! List access helpers. -/

theorem getD_set_self (ws : List Nat) (i w : Nat) (h : i < ws.length) :
    (ws.set i w).getD i 0 = w := by
  rw [List.getD_eq_getElem?_getD, List.getElem?_set_self h]
  rfl

theorem getD_set_ne (ws : List Nat) (i j w : Nat) (h : i ≠ j) :
    (ws.set i w).getD j 0 = ws.getD j 0 := by
  rw [List.getD_eq_getElem?_getD, List.getElem?_set_ne h,
    ← List.getD_eq_getElem?_getD]

theorem getD_replicate (n x i : Nat) (h : i < n) :
    (List.replicate n x).getD i 0 = x := by
  induction n generalizing i with
  | zero => omega
  | succ n ih =>
    cases i with
    | zero => simp [List.replicate]
    | succ i => simpa [List.replicate] using ih i (by omega)

theorem getD_take (ws : List Nat) (n i : Nat) (h : i < n) :
    (ws.take n).getD i 0 = ws.getD i 0 := by
  induction ws generalizing n i with
  | nil => simp
  | cons a l ih =>
    cases n with
    | zero => omega
    | succ n =>
      cases i with
      | zero => simp
      | succ i => simpa using ih n i (by omega)

theorem getD_of_length_le (ws : List Nat) (i : Nat) (h : ws.length ≤ i) :
    ws.getD i 0 = 0 := by
  rw [List.getD_eq_getElem?_getD, List.getElem?_eq_none (by simpa using h)]
  rfl

/-! Population count facts. -/

theorem countBits_eq_sum (k : Nat) :
    ∀ w, countBits k w = ∑ j in Finset.range k, if w.testBit j then 1 else 0 := by
  induction k with
  | zero => intro w; simp [countBits]
  | succ k ih =>
    intro w
    rw [countBits, ih (w >>> 1), Finset.sum_range_succ']
    have h0 : w &&& 1 = if w.testBit 0 then 1 else 0 := by
      rw [Nat.and_one_is_mod]
      rcases Nat.mod_two_eq_zero_or_one w with h | h <;> simp [h]
    have hs : ∀ j, (w >>> 1).testBit j = w.testBit (j + 1) := by
      intro j
      rw [Nat.testBit_shiftRight, Nat.add_comm]
    simp only [hs]
    rw [h0, Nat.add_comm]

theorem countBits_le (k w : Nat) : countBits k w ≤ k := by
  rw [countBits_eq_sum]
  have h : (∑ j in Finset.range k, if w.testBit j then 1 else 0) ≤
      ∑ _j in Finset.range k, 1 :=
    Finset.sum_le_sum fun i _ => by split <;> omega
  simpa using h

theorem nbitsFn_le (w : Nat) : nbitsFn w ≤ wordBits := countBits_le wordBits w

theorem nbitsFn_lt_wordMod (w : Nat) : nbitsFn w < wordMod :=
  lt_of_le_of_lt (nbitsFn_le w) (by norm_num [wordBits, wordMod])

theorem countBits_zero_val (k : Nat) : countBits k 0 = 0 := by
  induction k with
  | zero => rfl
  | succ k ih => simpa [countBits] using ih

theorem nbitsFn_zero : nbitsFn 0 = 0 := countBits_zero_val wordBits

theorem nbitsFn_or (w b : Nat) (hb : b < wordBits) (h : w.testBit b = false) :
    nbitsFn (w ||| (1 <<< b)) = nbitsFn w + 1 := by
  unfold nbitsFn
  rw [countBits_eq_sum, countBits_eq_sum]
  have key : ∀ j ∈ Finset.range wordBits,
      (if (w ||| 1 <<< b).testBit j then 1 else 0) =
        (if w.testBit j then 1 else 0) + if j = b then 1 else 0 := by
    intro j _
    rw [testBit_or_two_pow]
    rcases eq_or_ne j b with rfl | hj
    · simp [h]
    · simp [hj, Ne.symm hj]
  rw [Finset.sum_congr rfl key, Finset.sum_add_distrib,
    Finset.sum_ite_eq' (Finset.range wordBits) b fun _ => 1,
    if_pos (Finset.mem_range.mpr hb)]

theorem nbitsFn_andc (w b : Nat) (hb : b < wordBits) (h : w.testBit b = true) :
    nbitsFn (w &&& ucompl (1 <<< b)) + 1 = nbitsFn w := by
  unfold nbitsFn
  rw [countBits_eq_sum, countBits_eq_sum]
  have key : ∀ j ∈ Finset.range wordBits,
      (if w.testBit j then 1 else 0) =
        (if (w &&& ucompl (1 <<< b)).testBit j then 1 else 0) +
          if j = b then 1 else 0 := by
    intro j hj
    have hjlt : j < wordBits := Finset.mem_range.mp hj
    rw [testBit_and_compl_two_pow w hjlt]
    rcases eq_or_ne j b with rfl | hne
    · simp [h]
    · simp [hne]
  conv_rhs => rw [Finset.sum_congr rfl key]
  rw [Finset.sum_add_distrib,
    Finset.sum_ite_eq' (Finset.range wordBits) b fun _ => 1,
    if_pos (Finset.mem_range.mpr hb)]

theorem popcountTotal_nil : popcountTotal [] = 0 := rfl

theorem popcountTotal_cons (w : Nat) (ws : List Nat) :
    popcountTotal (w :: ws) = nbitsFn w + popcountTotal ws := by
  simp [popcountTotal]

theorem popcountTotal_append (l m : List Nat) :
    popcountTotal (l ++ m) = popcountTotal l + popcountTotal m := by
  simp [popcountTotal]

theorem popcountTotal_replicate_zero (n : Nat) :
    popcountTotal (List.replicate n 0) = 0 := by
  simp [popcountTotal, nbitsFn_zero]

theorem popcountTotal_set (ws : List Nat) (i w : Nat) (h : i < ws.length) :
    popcountTotal (ws.set i w) + nbitsFn (ws.getD i 0) =
      popcountTotal ws + nbitsFn w := by
  induction ws generalizing i with
  | nil => simp at h
  | cons a l ih =>
    cases i with
    | zero =>
      simp only [List.set, List.getD_cons_zero, popcountTotal_cons]
      omega
    | succ i =>
      have := ih i (by simpa using h)
      simp only [List.set, List.getD_cons_succ, popcountTotal_cons]
      omega

theorem popcountTotal_zero_elems (ws : List Nat)
    (h : ∀ i, i < ws.length → ws.getD i 0 = 0) : popcountTotal ws = 0 := by
  induction ws with
  | nil => rfl
  | cons a l ih =>
    have ha : a = 0 := h 0 (by simp)
    rw [popcountTotal_cons, ha, nbitsFn_zero, ih]
    intro i hi
    simpa using h (i + 1) (by simpa using hi)

/-! Bit-level reads and writes on the two representations. -/

theorem div_lt_nelems {i nbits : Nat} (h : i < nbits) :
    i / wordBits < nelems nbits := by
  simp only [nelems, wordBits]
  by_cases hr : nbits % 64 = 0 <;> simp only [hr, if_true, if_false] <;> omega

theorem nbits_le_mul_nelems (nbits : Nat) : nbits ≤ nelems nbits * wordBits := by
  simp only [nelems, wordBits]
  by_cases hr : nbits % 64 = 0 <;> simp only [hr, if_true, if_false] <;> omega

theorem bigGet_testBit (b : BigBitv) (i : Nat) :
    b.get i = (b.storage.getD (i / wordBits) 0).testBit (i % wordBits) := by
  rcases b with ⟨ws⟩
  exact bigGet_eq_testBit ws i

theorem bigSet_true_storage (b : BigBitv) (i : Nat) :
    (b.set i true).storage =
      b.storage.set (i / wordBits)
        (b.storage.getD (i / wordBits) 0 ||| 1 <<< (i % wordBits)) := rfl

theorem bigSet_false_storage (b : BigBitv) (i : Nat) :
    (b.set i false).storage =
      b.storage.set (i / wordBits)
        (b.storage.getD (i / wordBits) 0 &&& ucompl (1 <<< (i % wordBits))) :=
  rfl

theorem bigSet_length (b : BigBitv) (i : Nat) (x : Bool) :
    (b.set i x).storage.length = b.storage.length := by
  cases x with
  | true => rw [bigSet_true_storage, List.length_set]
  | false => rw [bigSet_false_storage, List.length_set]

theorem bigSet_get_self (b : BigBitv) (i : Nat) (x : Bool)
    (hi : i / wordBits < b.storage.length) : (b.set i x).get i = x := by
  have hb : i % wordBits < wordBits := Nat.mod_lt i (by norm_num [wordBits])
  cases x with
  | true =>
    rw [bigGet_testBit, bigSet_true_storage, getD_set_self _ _ _ hi,
      testBit_or_two_pow]
    simp
  | false =>
    rw [bigGet_testBit, bigSet_false_storage, getD_set_self _ _ _ hi,
      testBit_and_compl_two_pow _ hb]
    simp

theorem bigSet_get_other (b : BigBitv) (i j : Nat) (x : Bool) (hij : i ≠ j) :
    (b.set i x).get j = b.get j := by
  by_cases hrange : i / wordBits < b.storage.length
  · by_cases hw : i / wordBits = j / wordBits
    · have hbne : i % wordBits ≠ j % wordBits := by
        intro habs
        apply hij
        have hw' := hw
        simp only [wordBits] at hw' habs
        omega
      have hjb : j % wordBits < wordBits := Nat.mod_lt j (by norm_num [wordBits])
      cases x with
      | true =>
        rw [bigGet_testBit, bigGet_testBit, bigSet_true_storage, ← hw,
          getD_set_self _ _ _ hrange, hw, testBit_or_two_pow]
        simp [hbne]
      | false =>
        rw [bigGet_testBit, bigGet_testBit, bigSet_false_storage, ← hw,
          getD_set_self _ _ _ hrange, hw, testBit_and_compl_two_pow _ hjb]
        simp [Ne.symm hbne]
    · cases x with
      | true =>
        rw [bigGet_testBit, bigGet_testBit, bigSet_true_storage,
          getD_set_ne _ _ _ _ hw]
      | false =>
        rw [bigGet_testBit, bigGet_testBit, bigSet_false_storage,
          getD_set_ne _ _ _ _ hw]
  · have hle : b.storage.length ≤ i / wordBits := by omega
    cases x with
    | true =>
      rw [bigGet_testBit, bigGet_testBit, bigSet_true_storage,
        List.set_eq_of_length_le hle]
    | false =>
      rw [bigGet_testBit, bigGet_testBit, bigSet_false_storage,
        List.set_eq_of_length_le hle]

theorem smallSet_true_bits (s : SmallBitv) (i : Nat) :
    (s.set i true).bits = s.bits ||| 1 <<< i := rfl

theorem smallSet_false_bits (s : SmallBitv) (i : Nat) :
    (s.set i false).bits = s.bits &&& ucompl (1 <<< i) := rfl

theorem bitvGet_small (s : SmallBitv) (n i : Nat) :
    Bitv.get ⟨BitvVariant.Small s, n⟩ i = s.get i := rfl

theorem bitvGet_big (bb : BigBitv) (n i : Nat) :
    Bitv.get ⟨BitvVariant.Big bb, n⟩ i = bb.get i := rfl

theorem bitvSet_small (s : SmallBitv) (n i : Nat) (x : Bool) :
    Bitv.set ⟨BitvVariant.Small s, n⟩ i x =
      ⟨BitvVariant.Small (s.set i x), n⟩ := rfl

theorem bitvSet_big (bb : BigBitv) (n i : Nat) (x : Bool) :
    Bitv.set ⟨BitvVariant.Big bb, n⟩ i x = ⟨BitvVariant.Big (bb.set i x), n⟩ :=
  rfl

theorem bitvSet_nbits (b : Bitv) (i : Nat) (x : Bool) :
    (b.set i x).nbits = b.nbits := by
  rcases b with ⟨rep, n⟩
  cases rep <;> rfl

theorem bitvSet_wf (b : Bitv) (i : Nat) (x : Bool) (h : b.wf) :
    (b.set i x).wf := by
  rcases b with ⟨rep, n⟩
  cases rep with
  | Small s => exact h
  | Big bb =>
    rw [bitvSet_big]
    show (bb.set i x).storage.length = nelems n
    rw [bigSet_length]
    exact h

theorem bitvGet_set_self (b : Bitv) (i : Nat) (x : Bool) (hwf : b.wf)
    (hi : i < b.nbits) : (b.set i x).get i = x := by
  rcases b with ⟨rep, n⟩
  cases rep with
  | Small s =>
    have hn : n ≤ wordBits := hwf
    have hib : i < wordBits := lt_of_lt_of_le hi hn
    rw [bitvSet_small, bitvGet_small, smallGet_eq_testBit]
    cases x with
    | true =>
      rw [smallSet_true_bits, testBit_or_two_pow]
      simp
    | false =>
      rw [smallSet_false_bits, testBit_and_compl_two_pow _ hib]
      simp
  | Big bb =>
    have hlen : bb.storage.length = nelems n := hwf
    have hr : i / wordBits < bb.storage.length := hlen ▸ div_lt_nelems hi
    rw [bitvSet_big, bitvGet_big]
    exact bigSet_get_self bb i x hr

theorem bitvGet_set_other (b : Bitv) (i j : Nat) (x : Bool) (hwf : b.wf)
    (hj : j < b.nbits) (hij : i ≠ j) : (b.set i x).get j = b.get j := by
  rcases b with ⟨rep, n⟩
  cases rep with
  | Small s =>
    have hn : n ≤ wordBits := hwf
    have hjb : j < wordBits := lt_of_lt_of_le hj hn
    rw [bitvSet_small, bitvGet_small, bitvGet_small, smallGet_eq_testBit,
      smallGet_eq_testBit]
    cases x with
    | true =>
      rw [smallSet_true_bits, testBit_or_two_pow]
      simp [hij]
    | false =>
      rw [smallSet_false_bits, testBit_and_compl_two_pow _ hjb]
      simp [Ne.symm hij]
  | Big bb =>
    rw [bitvSet_big, bitvGet_big, bitvGet_big]
    exact bigSet_get_other bb i j x hij

/-! Construction lemmas. -/

theorem new_nbits (n : Nat) (init : Bool) : (Bitv.new n init).nbits = n := by
  rw [Bitv.new]
  split <;> rfl

theorem new_wf (n : Nat) (init : Bool) : (Bitv.new n init).wf := by
  by_cases h : n ≤ wordBits
  · rw [Bitv.new, if_pos h]
    exact h
  · rw [Bitv.new, if_neg h]
    show (List.replicate (nelems n) _).length = nelems n
    rw [List.length_replicate]

theorem foldl_set_nbits (f : Nat → Bool) (l : List Nat) (bv : Bitv) :
    (l.foldl (fun b i => b.set i (f i)) bv).nbits = bv.nbits := by
  induction l generalizing bv with
  | nil => rfl
  | cons a l ih => rw [List.foldl_cons, ih, bitvSet_nbits]

theorem foldl_set_wf (f : Nat → Bool) (l : List Nat) (bv : Bitv) (h : bv.wf) :
    (l.foldl (fun b i => b.set i (f i)) bv).wf := by
  induction l generalizing bv with
  | nil => exact h
  | cons a l ih => exact ih _ (bitvSet_wf _ _ _ h)

theorem foldl_set_get (f : Nat → Bool) (l : List Nat) (bv : Bitv)
    (hwf : bv.wf) (j : Nat) (hj : j < bv.nbits) :
    (l.foldl (fun b i => b.set i (f i)) bv).get j =
      if j ∈ l then f j else bv.get j := by
  induction l generalizing bv with
  | nil => simp
  | cons a l ih =>
    rw [List.foldl_cons, ih (bv.set a (f a)) (bitvSet_wf _ _ _ hwf) (by
      rwa [bitvSet_nbits])]
    by_cases hjl : j ∈ l
    · simp [hjl]
    · by_cases hja : j = a
      · subst hja
        simp [hjl, bitvGet_set_self bv j (f j) hwf hj]
      · simp [hjl, hja, bitvGet_set_other bv a j (f a) hwf hj (Ne.symm hja)]

theorem from_fn_nbits (len : Nat) (f : Nat → Bool) :
    (from_fn len f).nbits = len := by
  rw [from_fn, foldl_set_nbits, new_nbits]

theorem from_fn_wf (len : Nat) (f : Nat → Bool) : (from_fn len f).wf :=
  foldl_set_wf f _ _ (new_wf len false)

theorem from_fn_get (len : Nat) (f : Nat → Bool) (j : Nat) (hj : j < len) :
    (from_fn len f).get j = f j := by
  rw [from_fn, foldl_set_get f _ _ (new_wf len false) j (by
    rwa [new_nbits])]
  simp [List.mem_range.mpr hj]

/-! Claim C9: word-mask helpers. -/

/-- C9 counterexample: `0` is an exact multiple of the word width, yet
`small_mask 0` is `0`, not the all-ones mask, so the claim that the word-mask
helpers return all-ones at every exact multiple of the word width fails at
`nbits = 0`. -/
theorem small_mask_zero_counterexample :
    (0 : Nat) % wordBits = 0 ∧ small_mask 0 = 0 ∧ small_mask 0 ≠ wordMod - 1 :=
  ⟨rfl, rfl, by decide⟩

/-- C9 (amended): for every positive `nbits` that is an exact multiple of the
word width the mask helpers return the all-ones word (`big_mask` in fact does
so for every multiple, at every word index); for a final partial word they
return `(1 <<< (nbits % wordBits)) - 1` (and all-ones for every earlier word);
and the single-word mask `(1 << nbits) - 1` evaluated at `nbits = wordBits`
is all-ones under wrap-around word arithmetic. -/
theorem mask_helpers_spec :
    (∀ nbits, nbits % wordBits = 0 → ∀ elem, big_mask nbits elem = wordMod - 1) ∧
    (∀ nbits, 0 < nbits → nbits % wordBits = 0 → small_mask nbits = wordMod - 1) ∧
    (∀ nbits, nbits % wordBits ≠ 0 →
      big_mask nbits (nbits / wordBits) = (1 <<< (nbits % wordBits)) - 1 ∧
      ∀ elem, elem < nbits / wordBits → big_mask nbits elem = wordMod - 1) ∧
    (∀ nbits, nbits < wordBits →
      small_mask nbits = (1 <<< (nbits % wordBits)) - 1) ∧
    small_mask wordBits = wordMod - 1 := by
  refine ⟨?_, ?_, ?_, ?_, ?_⟩
  · intro nbits hr elem
    rw [big_mask]
    exact if_pos (Or.inr hr)
  · intro nbits hpos hr
    have h64 : wordBits ≤ nbits := by
      simp only [wordBits] at hr ⊢
      omega
    have hdvd : wordMod ∣ 1 <<< nbits := by
      rw [Nat.one_shiftLeft, wordMod_eq]
      exact pow_dvd_pow 2 h64
    have hz : (1 <<< nbits) % wordMod = 0 := by
      obtain ⟨c, hc⟩ := hdvd
      rw [hc, Nat.mul_mod_right]
    rw [small_mask, hz, Nat.zero_add,
      Nat.mod_eq_of_lt (Nat.sub_lt (by norm_num [wordMod, wordBits]) one_pos)]
  · intro nbits hr
    constructor
    · rw [big_mask]
      have hcond : ¬(nbits / wordBits <
          (nbits / wordBits + if nbits % wordBits = 0 then 0 else 1) - 1 ∨
          nbits % wordBits = 0) := by
        rw [if_neg hr]
        simp only [not_or]
        exact ⟨by rw [Nat.add_sub_cancel]; exact Nat.lt_irrefl _, hr⟩
      rw [if_neg hcond]
    · intro elem helem
      rw [big_mask]
      refine if_pos (Or.inl ?_)
      rw [if_neg hr, Nat.add_sub_cancel]
      exact helem
  · intro nbits hlt
    rw [small_mask_eq (le_of_lt hlt), Nat.mod_eq_of_lt (by
      simpa [wordBits] using hlt), Nat.one_shiftLeft]
  · rw [small_mask_eq (le_refl wordBits)]
    rfl

/-- C9 witness: the amended mask properties instantiated at concrete inputs
(`nbits = 128`, `70`, `3` and `wordBits`). -/
theorem mask_helpers_spec_witness :
    big_mask 128 1 = wordMod - 1 ∧ small_mask 128 = wordMod - 1 ∧
    big_mask 70 (70 / wordBits) = (1 <<< (70 % wordBits)) - 1 ∧
    big_mask 70 0 = wordMod - 1 ∧
    small_mask 3 = (1 <<< (3 % wordBits)) - 1 ∧
    small_mask wordBits = wordMod - 1 :=
  ⟨mask_helpers_spec.1 128 (by decide) 1,
   mask_helpers_spec.2.1 128 (by decide) (by decide),
   (mask_helpers_spec.2.2.1 70 (by decide)).1,
   (mask_helpers_spec.2.2.1 70 (by decide)).2 0 (by decide),
   mask_helpers_spec.2.2.2.1 3 (by decide),
   mask_helpers_spec.2.2.2.2⟩

/-! Claim C2: `Clone for Bitv`. -/

/-- C2: the claim that `clone()` succeeds on every bit vector, including
Expanded vectors whose `nbits` is an exact multiple of the word size, fails on
the code: for `Bitv::new(128, false)` (a well-formed Expanded vector with two
storage words) the clone allocates `128/64 + 1 = 3` words and copies three
words out of a two-word source, an out-of-bounds read, modelled as `none`. -/
theorem clone_fails_on_aligned_expanded :
    (Bitv.new (2 * wordBits) false).wf ∧ (2 * wordBits) % wordBits = 0 ∧
    (Bitv.new (2 * wordBits) false).clone = none :=
  ⟨rfl, rfl, rfl⟩

/-! Claim C7: byte serialization. -/

theorem shift_and_one_beq (B s : Nat) :
    ((B >>> s) &&& 1 == 1) = B.testBit s := by
  rw [beq_one_eq_decide, Nat.and_one_is_mod, Nat.testBit_to_div_mod,
    Nat.shiftRight_eq_div_pow]

theorem ite_and_one (z : Nat) :
    (if (z &&& 1 == 1) = true then 1 else 0) = z &&& 1 := by
  rw [Nat.and_one_is_mod]
  rcases Nat.mod_two_eq_zero_or_one z with h | h <;> simp [h]

set_option maxRecDepth 4096 in
theorem byte_reconstruct : ∀ B, B < 256 →
    (((B >>> 7) &&& 1) <<< 7) ||| (((B >>> 6) &&& 1) <<< 6) |||
      (((B >>> 5) &&& 1) <<< 5) ||| (((B >>> 4) &&& 1) <<< 4) |||
      (((B >>> 3) &&& 1) <<< 3) ||| (((B >>> 2) &&& 1) <<< 2) |||
      (((B >>> 1) &&& 1) <<< 1) ||| (((B >>> 0) &&& 1) <<< 0) = B := by
  decide

theorem from_bytes_nbits (bytes : List Nat) :
    (from_bytes bytes).nbits = bytes.length * 8 := by
  rw [from_bytes, from_fn_nbits]

theorem from_bytes_get (bytes : List Nat) (i : Nat)
    (hi : i < bytes.length * 8) :
    (from_bytes bytes).get i = (bytes.getD (i / 8) 0).testBit (7 - i % 8) := by
  rw [from_bytes, from_fn_get _ _ _ hi, shift_and_one_beq]

theorem from_bytes_byteBit (bytes : List Nat) (i t : Nat)
    (hi : i < bytes.length) (ht : t < 8) :
    (from_bytes bytes).byteBit i t =
      ((bytes.getD i 0 >>> (7 - t)) &&& 1) <<< (7 - t) := by
  have hofs : ¬((from_bytes bytes).nbits ≤ i * 8 + t) := by
    rw [from_bytes_nbits]
    omega
  rw [Bitv.byteBit]
  simp only [if_neg hofs]
  have hidx : i * 8 + t < bytes.length * 8 := by omega
  rw [from_bytes, from_fn_get _ _ _ hidx]
  have h1 : (i * 8 + t) / 8 = i := by omega
  have h2 : (i * 8 + t) % 8 = t := by omega
  rw [h1, h2, ite_and_one]

theorem to_bytes_from_bytes (bytes : List Nat) (hb : ∀ x ∈ bytes, x < 256) :
    (from_bytes bytes).to_bytes = bytes := by
  have hn : (from_bytes bytes).nbits = bytes.length * 8 := from_bytes_nbits _
  have hlen : (from_bytes bytes).nbits / 8 +
      (if (from_bytes bytes).nbits % 8 = 0 then 0 else 1) = bytes.length := by
    rw [hn]
    simp [Nat.mul_mod_left, Nat.mul_div_cancel]
  simp only [Bitv.to_bytes, hlen]
  apply List.ext_getElem
  · simp
  · intro i h1 h2
    have hi : i < bytes.length := by simpa using h2
    have hByte : bytes.getD i 0 = bytes[i] := by
      rw [List.getD_eq_getElem?_getD, List.getElem?_eq_getElem hi]
      rfl
    have hB : bytes.getD i 0 < 256 := by
      rw [hByte]
      exact hb _ (List.getElem_mem hi)
    rw [List.getElem_map, List.getElem_range]
    rw [from_bytes_byteBit bytes i 0 hi (by norm_num),
      from_bytes_byteBit bytes i 1 hi (by norm_num),
      from_bytes_byteBit bytes i 2 hi (by norm_num),
      from_bytes_byteBit bytes i 3 hi (by norm_num),
      from_bytes_byteBit bytes i 4 hi (by norm_num),
      from_bytes_byteBit bytes i 5 hi (by norm_num),
      from_bytes_byteBit bytes i 6 hi (by norm_num),
      from_bytes_byteBit bytes i 7 hi (by norm_num)]
    rw [← hByte]
    simpa using byte_reconstruct _ hB

/-- C7: `from_bytes(b)` yields a vector of length `8 * len(b)` whose logical
bit `i` is bit `7 - (i mod 8)` of byte `i / 8`, and (for genuine byte values,
each below 256) the round trip `from_bytes(b).to_bytes()` returns exactly
`b`. -/
theorem from_bytes_spec (bytes : List Nat) (hb : ∀ x ∈ bytes, x < 256) :
    (from_bytes bytes).nbits = 8 * bytes.length ∧
    (∀ i, i < 8 * bytes.length →
      (from_bytes bytes).get i = (bytes.getD (i / 8) 0).testBit (7 - i % 8)) ∧
    (from_bytes bytes).to_bytes = bytes := by
  refine ⟨by rw [from_bytes_nbits, Nat.mul_comm], ?_, to_bytes_from_bytes bytes hb⟩
  intro i hi
  exact from_bytes_get bytes i (by omega)

/-- C7 witness: the byte-serialization properties instantiated at the concrete
byte sequence `[0b10100101, 0b00000011]`. -/
theorem from_bytes_spec_witness :
    (from_bytes [165, 3]).nbits = 8 * 2 ∧
    (∀ i, i < 8 * 2 →
      (from_bytes [165, 3]).get i =
        (([165, 3] : List Nat).getD (i / 8) 0).testBit (7 - i % 8)) ∧
    (from_bytes [165, 3]).to_bytes = [165, 3] := by
  have h := from_bytes_spec [165, 3] (by decide)
  simpa using h

/-! Claim C6: `Bitv::equal`. -/

theorem bigEquals_iff (s b : BigBitv) (nbits : Nat) :
    s.equals b nbits = true ↔
      ∀ k, k < b.storage.length →
        big_mask nbits k &&& s.storage.getD k 0 =
          big_mask nbits k &&& b.storage.getD k 0 := by
  simp [BigBitv.equals, List.all_eq_true, List.mem_range]

theorem masked_words_iff_bits (nbits : Nat) (ws vs : List Nat) :
    (∀ k, k < nelems nbits →
      big_mask nbits k &&& ws.getD k 0 = big_mask nbits k &&& vs.getD k 0) ↔
    (∀ j, j < nbits → BigBitv.get ⟨ws⟩ j = BigBitv.get ⟨vs⟩ j) := by
  constructor
  · intro h j hj
    have hk : j / wordBits < nelems nbits := div_lt_nelems hj
    rw [bigGet_eq_testBit, bigGet_eq_testBit]
    refine (masked_eq_iff _ _ _).mp (h _ hk) (j % wordBits) ?_
    rw [big_mask_testBit hk]
    refine decide_eq_true ⟨Nat.mod_lt j (by norm_num [wordBits]), ?_⟩
    rw [Nat.div_add_mod j wordBits]
    exact hj
  · intro h k hk
    rw [masked_eq_iff]
    intro p hp
    rw [big_mask_testBit hk] at hp
    obtain ⟨hplt, hjlt⟩ := of_decide_eq_true hp
    have h1 : (wordBits * k + p) / wordBits = k := by
      simp only [wordBits] at hplt ⊢
      omega
    have h2 : (wordBits * k + p) % wordBits = p := by
      simp only [wordBits] at hplt ⊢
      omega
    have hg := h (wordBits * k + p) hjlt
    rw [bigGet_eq_testBit, bigGet_eq_testBit, h1, h2] at hg
    exact hg

/-- C6: `equal` is `false` whenever the two lengths differ or the two
representation kinds differ — including a Compact and an Expanded vector of
the same `nbits` with identical bit content — and for two well-formed vectors
of the same kind and length it returns exactly whether the masked
representations agree at every valid bit. -/
theorem equal_spec :
    (∀ b1 b2 : Bitv, b1.nbits ≠ b2.nbits → b1.equal b2 = false) ∧
    (∀ b1 b2 : Bitv, b1.isSmallRep ≠ b2.isSmallRep → b1.equal b2 = false) ∧
    (∀ b1 b2 : Bitv, b1.wf → b2.wf → b1.nbits = b2.nbits →
      b1.isSmallRep = b2.isSmallRep →
      (b1.equal b2 = true ↔ ∀ i, i < b1.nbits → b1.get i = b2.get i)) := by
  refine ⟨?_, ?_, ?_⟩
  · intro b1 b2 h
    rw [Bitv.equal, if_pos h]
  · intro b1 b2 h
    rcases b1 with ⟨rep1, n1⟩
    rcases b2 with ⟨rep2, n2⟩
    cases rep1 <;> cases rep2 <;>
      first
        | (exact absurd rfl h)
        | simp [Bitv.equal]
  · intro b1 b2 hwf1 hwf2 hn hk
    rcases b1 with ⟨rep1, n1⟩
    rcases b2 with ⟨rep2, n2⟩
    dsimp only at hn
    subst hn
    cases rep1 with
    | Small s1 =>
      cases rep2 with
      | Big bb2 => simp [Bitv.isSmallRep] at hk
      | Small s2 =>
        have hwf1' : n1 ≤ wordBits := hwf1
        have he : Bitv.equal ⟨BitvVariant.Small s1, n1⟩
            ⟨BitvVariant.Small s2, n1⟩ =
            (small_mask n1 &&& s1.bits == small_mask n1 &&& s2.bits) := by
          rw [Bitv.equal, if_neg (by simp)]
          rfl
        rw [he, beq_iff_eq]
        constructor
        · intro h i hi
          rw [bitvGet_small, bitvGet_small, smallGet_eq_testBit,
            smallGet_eq_testBit]
          exact (masked_eq_iff _ _ _).mp h i (by
            rw [small_mask_testBit hwf1']
            exact decide_eq_true hi)
        · intro h
          rw [masked_eq_iff]
          intro p hp
          rw [small_mask_testBit hwf1'] at hp
          have hg := h p (of_decide_eq_true hp)
          rwa [bitvGet_small, bitvGet_small, smallGet_eq_testBit,
            smallGet_eq_testBit] at hg
    | Big bb1 =>
      cases rep2 with
      | Small s2 => simp [Bitv.isSmallRep] at hk
      | Big bb2 =>
        have hl2 : bb2.storage.length = nelems n1 := hwf2
        have he : Bitv.equal ⟨BitvVariant.Big bb1, n1⟩
            ⟨BitvVariant.Big bb2, n1⟩ = bb1.equals bb2 n1 := by
          rw [Bitv.equal, if_neg (by simp)]
        rw [he, bigEquals_iff, hl2, masked_words_iff_bits]
        constructor <;> intro h j hj <;> exact h j hj

/-- C6 witness: `equal` on concrete vectors — differing lengths give `false`;
a Compact and an Expanded all-zero vector of the same length 64 give `false`;
two equal compact vectors satisfy the masked-agreement equivalence. -/
theorem equal_spec_witness :
    (Bitv.new 10 false).equal (Bitv.new 11 false) = false ∧
    (Bitv.new wordBits false).equal BitvSet.new.unwrap = false ∧
    ((Bitv.new 3 true).equal (Bitv.new 3 true) = true ↔
      ∀ i, i < (Bitv.new 3 true).nbits →
        (Bitv.new 3 true).get i = (Bitv.new 3 true).get i) :=
  ⟨equal_spec.1 _ _ (by decide), equal_spec.2.1 _ _ (by decide),
   equal_spec.2.2 _ _ (new_wf 3 true) (new_wf 3 true) rfl rfl⟩

theorem processAux_length (nbits : Nat) (op : Nat → Nat → Nat) :
    ∀ (i : Nat) (ws vs : List Nat),
      (processAux nbits op i ws vs).1.length = ws.length := by
  intro i ws
  induction ws generalizing i with
  | nil => intro vs; rfl
  | cons w ws ih =>
    intro vs
    cases vs with
    | nil => rfl
    | cons v vs =>
      simp only [processAux]
      split <;> simp [ih]

theorem processAux_getD (nbits : Nat) (op : Nat → Nat → Nat) :
    ∀ (i k : Nat) (ws vs : List Nat), k < ws.length → k < vs.length →
      (processAux nbits op i ws vs).1.getD k 0 =
        (if ws.getD k 0 &&& big_mask nbits (i + k) =
            op (ws.getD k 0 &&& big_mask nbits (i + k))
              (vs.getD k 0 &&& big_mask nbits (i + k)) &&&
              big_mask nbits (i + k)
         then ws.getD k 0
         else op (ws.getD k 0 &&& big_mask nbits (i + k))
           (vs.getD k 0 &&& big_mask nbits (i + k)) &&&
           big_mask nbits (i + k)) := by
  intro i k ws
  induction ws generalizing i k with
  | nil =>
    intro vs h1 h2
    simp at h1
  | cons w ws ih =>
    intro vs h1 h2
    cases vs with
    | nil => simp at h2
    | cons v vs =>
      cases k with
      | zero =>
        simp only [processAux, List.getD_cons_zero, Nat.add_zero]
        rcases eq_or_ne (w &&& big_mask nbits i)
            (op (w &&& big_mask nbits i) (v &&& big_mask nbits i) &&&
              big_mask nbits i) with h | h
        · rw [if_pos h, if_pos h]
          rfl
        · rw [if_neg h, if_neg h]
          rfl
      | succ k =>
        have hk1 : k < ws.length := by simpa using h1
        have hk2 : k < vs.length := by simpa using h2
        have ihk := ih (i + 1) k vs hk1 hk2
        have harith : i + 1 + k = i + (k + 1) := by omega
        rw [harith] at ihk
        simp only [processAux, List.getD_cons_succ]
        rcases eq_or_ne (w &&& big_mask nbits i)
            (op (w &&& big_mask nbits i) (v &&& big_mask nbits i) &&&
              big_mask nbits i) with h | h
        · rw [if_pos h]
          simpa using ihk
        · rw [if_neg h]
          simpa using ihk

theorem processAux_changed (nbits : Nat) (op : Nat → Nat → Nat) :
    ∀ (i : Nat) (ws vs : List Nat), ws.length = vs.length →
      ((processAux nbits op i ws vs).2 = true ↔
        ∃ k, k < ws.length ∧
          ws.getD k 0 &&& big_mask nbits (i + k) ≠
            op (ws.getD k 0 &&& big_mask nbits (i + k))
              (vs.getD k 0 &&& big_mask nbits (i + k)) &&&
              big_mask nbits (i + k)) := by
  intro i ws
  induction ws generalizing i with
  | nil =>
    intro vs h
    simp [processAux]
  | cons w ws ih =>
    intro vs hlen
    cases vs with
    | nil => simp at hlen
    | cons v vs =>
      have hlen' : ws.length = vs.length := by simpa using hlen
      simp only [processAux]
      rcases eq_or_ne (w &&& big_mask nbits i)
          (op (w &&& big_mask nbits i) (v &&& big_mask nbits i) &&&
            big_mask nbits i) with h | h
      · rw [if_pos h]
        show (processAux nbits op (i + 1) ws vs).2 = true ↔ _
        rw [ih (i + 1) vs hlen']
        constructor
        · rintro ⟨k, hk, hne⟩
          refine ⟨k + 1, by simpa using hk, ?_⟩
          have harith : i + 1 + k = i + (k + 1) := by omega
          rw [harith] at hne
          simpa using hne
        · rintro ⟨k, hk, hne⟩
          cases k with
          | zero =>
            rw [Nat.add_zero] at hne
            simp only [List.getD_cons_zero] at hne
            exact absurd h hne
          | succ k =>
            refine ⟨k, by simpa using hk, ?_⟩
            have harith : i + 1 + k = i + (k + 1) := by omega
            rw [harith]
            simpa using hne
      · rw [if_neg h]
        constructor
        · intro _
          exact ⟨0, by simp, by simpa using h⟩
        · intro _
          rfl

theorem process_spec (bb1 bb2 : BigBitv) (n : Nat) (f : Nat → Nat → Nat)
    (g : Bool → Bool → Bool)
    (hf : ∀ x y p, p < wordBits →
      (f x y).testBit p = g (x.testBit p) (y.testBit p))
    (h1 : bb1.storage.length = nelems n) (h2 : bb2.storage.length = nelems n) :
    bb1.process bb2 n f =
      some (⟨(processAux n f 0 bb1.storage bb2.storage).1⟩,
        (processAux n f 0 bb1.storage bb2.storage).2) ∧
    (processAux n f 0 bb1.storage bb2.storage).1.length =
      bb1.storage.length ∧
    (∀ j, j < n →
      BigBitv.get ⟨(processAux n f 0 bb1.storage bb2.storage).1⟩ j =
        g (bb1.get j) (bb2.get j)) ∧
    ((processAux n f 0 bb1.storage bb2.storage).2 = true ↔
      ∃ j, j < n ∧
        BigBitv.get ⟨(processAux n f 0 bb1.storage bb2.storage).1⟩ j ≠
          bb1.get j) := by
  have hll : bb1.storage.length = bb2.storage.length := by rw [h1, h2]
  have hplt' : ∀ j : Nat, j % wordBits < wordBits := fun j =>
    Nat.mod_lt j (by norm_num [wordBits])
  have hget : ∀ j, j < n →
      BigBitv.get ⟨(processAux n f 0 bb1.storage bb2.storage).1⟩ j =
        g (bb1.get j) (bb2.get j) := by
    intro j hj
    have hk : j / wordBits < nelems n := div_lt_nelems hj
    have hk1 : j / wordBits < bb1.storage.length := by rw [h1]; exact hk
    have hk2 : j / wordBits < bb2.storage.length := by rw [h2]; exact hk
    have hgd := processAux_getD n f 0 (j / wordBits) bb1.storage bb2.storage
      hk1 hk2
    rw [Nat.zero_add] at hgd
    have hmb : (big_mask n (j / wordBits)).testBit (j % wordBits) = true := by
      rw [big_mask_testBit hk]
      refine decide_eq_true ⟨hplt' j, ?_⟩
      rw [Nat.div_add_mod j wordBits]
      exact hj
    have e1 : bb1.get j =
        (bb1.storage.getD (j / wordBits) 0).testBit (j % wordBits) :=
      bigGet_testBit bb1 j
    have e2 : bb2.get j =
        (bb2.storage.getD (j / wordBits) 0).testBit (j % wordBits) :=
      bigGet_testBit bb2 j
    have hnw : (f (bb1.storage.getD (j / wordBits) 0 &&& big_mask n (j / wordBits))
        (bb2.storage.getD (j / wordBits) 0 &&& big_mask n (j / wordBits)) &&&
        big_mask n (j / wordBits)).testBit (j % wordBits) =
        g (bb1.get j) (bb2.get j) := by
      rw [Nat.testBit_and, hmb, Bool.and_true, hf _ _ _ (hplt' j),
        Nat.testBit_and, hmb, Bool.and_true, Nat.testBit_and, hmb,
        Bool.and_true, e1, e2]
    rw [bigGet_eq_testBit, hgd]
    rcases eq_or_ne
        (bb1.storage.getD (j / wordBits) 0 &&& big_mask n (j / wordBits))
        (f (bb1.storage.getD (j / wordBits) 0 &&& big_mask n (j / wordBits))
          (bb2.storage.getD (j / wordBits) 0 &&& big_mask n (j / wordBits)) &&&
          big_mask n (j / wordBits)) with hc | hc
    · rw [if_pos hc]
      have hview : (bb1.storage.getD (j / wordBits) 0).testBit (j % wordBits) =
          ((bb1.storage.getD (j / wordBits) 0 &&&
            big_mask n (j / wordBits))).testBit (j % wordBits) := by
        rw [Nat.testBit_and, hmb, Bool.and_true]
      rw [hview, hc, hnw]
    · rw [if_neg hc]
      exact hnw
  refine ⟨?_, processAux_length n f 0 _ _, hget, ?_⟩
  · rw [BigBitv.process, if_pos hll]
  · rw [processAux_changed n f 0 bb1.storage bb2.storage hll]
    simp only [Nat.zero_add]
    constructor
    · rintro ⟨k, hk, hne⟩
      have hkn : k < nelems n := by rw [← h1]; exact hk
      have hex : ∃ p, (bb1.storage.getD k 0 &&& big_mask n k).testBit p ≠
          (f (bb1.storage.getD k 0 &&& big_mask n k)
            (bb2.storage.getD k 0 &&& big_mask n k) &&&
            big_mask n k).testBit p := by
        by_contra hall
        push_neg at hall
        exact hne (Nat.eq_of_testBit_eq fun p => hall p)
      obtain ⟨p, hp⟩ := hex
      have hmp : (big_mask n k).testBit p = true := by
        by_contra hmpf
        have hmp' : (big_mask n k).testBit p = false :=
          Bool.eq_false_iff.mpr hmpf
        apply hp
        rw [Nat.testBit_and, Nat.testBit_and, hmp', Bool.and_false,
          Bool.and_false]
      obtain ⟨hplt, hjn⟩ := of_decide_eq_true ((big_mask_testBit hkn p) ▸ hmp)
      have hdiv : (wordBits * k + p) / wordBits = k := by
        simp only [wordBits] at hplt ⊢
        omega
      have hmod : (wordBits * k + p) % wordBits = p := by
        simp only [wordBits] at hplt ⊢
        omega
      refine ⟨wordBits * k + p, hjn, ?_⟩
      have hw0 : (bb1.storage.getD k 0 &&& big_mask n k).testBit p =
          (bb1.storage.getD k 0).testBit p := by
        rw [Nat.testBit_and, hmp, Bool.and_true]
      have hnwp : (f (bb1.storage.getD k 0 &&& big_mask n k)
          (bb2.storage.getD k 0 &&& big_mask n k) &&& big_mask n k).testBit p =
          g ((bb1.storage.getD k 0).testBit p)
            ((bb2.storage.getD k 0).testBit p) := by
        rw [Nat.testBit_and, hmp, Bool.and_true, hf _ _ _ hplt,
          Nat.testBit_and, hmp, Bool.and_true, Nat.testBit_and, hmp,
          Bool.and_true]
      rw [hget _ hjn, bigGet_testBit bb1, bigGet_testBit bb2, hdiv, hmod]
      intro habs
      apply hp
      rw [hw0, hnwp]
      exact habs.symm
    · rintro ⟨j, hjn, hne⟩
      have hk : j / wordBits < nelems n := div_lt_nelems hjn
      have hk1 : j / wordBits < bb1.storage.length := by rw [h1]; exact hk
      have hk2 : j / wordBits < bb2.storage.length := by rw [h2]; exact hk
      refine ⟨j / wordBits, hk1, ?_⟩
      intro hceq
      apply hne
      have hgd := processAux_getD n f 0 (j / wordBits) bb1.storage bb2.storage
        hk1 hk2
      rw [Nat.zero_add] at hgd
      rw [bigGet_eq_testBit, hgd, if_pos hceq, ← bigGet_testBit bb1]

theorem bits_op_spec (s1 s2 : SmallBitv) (n : Nat) (f : Nat → Nat → Nat)
    (g : Bool → Bool → Bool)
    (hf : ∀ x y p, p < wordBits →
      (f x y).testBit p = g (x.testBit p) (y.testBit p))
    (hn : n ≤ wordBits) :
    (s1.bits_op s2.bits n f).1.bits = f s1.bits s2.bits ∧
    (∀ i, i < n →
      (s1.bits_op s2.bits n f).1.get i = g (s1.get i) (s2.get i)) ∧
    ((s1.bits_op s2.bits n f).2 = true ↔
      ∃ i, i < n ∧ (s1.bits_op s2.bits n f).1.get i ≠ s1.get i) := by
  have hres : (s1.bits_op s2.bits n f).1.bits = f s1.bits s2.bits := rfl
  have hget : ∀ i, i < n →
      (s1.bits_op s2.bits n f).1.get i = g (s1.get i) (s2.get i) := by
    intro i hi
    rw [smallGet_eq_testBit, hres, smallGet_eq_testBit, smallGet_eq_testBit]
    exact hf _ _ _ (lt_of_lt_of_le hi hn)
  refine ⟨hres, hget, ?_⟩
  have hflag : (s1.bits_op s2.bits n f).2 =
      (small_mask n &&& s1.bits != small_mask n &&& f s1.bits s2.bits) := rfl
  rw [hflag, bne_iff_ne]
  constructor
  · intro hne
    have hex : ∃ p, (small_mask n &&& s1.bits).testBit p ≠
        (small_mask n &&& f s1.bits s2.bits).testBit p := by
      by_contra hall
      push_neg at hall
      exact hne (Nat.eq_of_testBit_eq fun p => hall p)
    obtain ⟨p, hp⟩ := hex
    have hmp : (small_mask n).testBit p = true := by
      by_contra hmpf
      have hz : (small_mask n).testBit p = false := Bool.eq_false_iff.mpr hmpf
      apply hp
      rw [Nat.testBit_and, Nat.testBit_and, hz, Bool.false_and, Bool.false_and]
    have hpn : p < n := of_decide_eq_true ((small_mask_testBit hn p) ▸ hmp)
    refine ⟨p, hpn, ?_⟩
    rw [smallGet_eq_testBit, hres, smallGet_eq_testBit]
    intro habs
    apply hp
    rw [Nat.testBit_and, Nat.testBit_and, hmp, Bool.true_and, Bool.true_and]
    exact habs.symm
  · rintro ⟨i, hi, hne⟩
    intro heq
    apply hne
    rw [smallGet_eq_testBit, hres, smallGet_eq_testBit]
    have hmi := (masked_eq_iff _ _ _).mp heq i (by
      rw [small_mask_testBit hn]
      exact decide_eq_true hi)
    exact hmi.symm

theorem op_bitwise (op : Op) (x y p : Nat) (hp : p < wordBits) :
    (op.wordFn x y).testBit p = op.boolFn (x.testBit p) (y.testBit p) := by
  cases op with
  | Union => simp [Op.wordFn, Op.boolFn]
  | Intersect => simp [Op.wordFn, Op.boolFn]
  | Assign => simp [Op.wordFn, Op.boolFn]
  | Difference =>
    show (x &&& ucompl y).testBit p = _
    rw [Nat.testBit_and, ucompl_testBit_lt hp]
    rfl

theorem do_op_small (s1 s2 : SmallBitv) (n : Nat) (op : Op) :
    Bitv.do_op ⟨BitvVariant.Small s1, n⟩ op ⟨BitvVariant.Small s2, n⟩ =
      some (⟨BitvVariant.Small (s1.bits_op s2.bits n op.wordFn).1, n⟩,
        (s1.bits_op s2.bits n op.wordFn).2) := by
  cases op <;> (rw [Bitv.do_op, if_neg (by simp)]; rfl)

theorem do_op_big (bb1 bb2 : BigBitv) (n : Nat) (op : Op) :
    Bitv.do_op ⟨BitvVariant.Big bb1, n⟩ op ⟨BitvVariant.Big bb2, n⟩ =
      (bb1.process bb2 n op.wordFn).map
        (fun p => (⟨BitvVariant.Big p.1, n⟩, p.2)) := by
  cases op <;> (rw [Bitv.do_op, if_neg (by simp)]; rfl)

theorem do_op_nbits_ne (b1 b2 : Bitv) (op : Op) (h : b1.nbits ≠ b2.nbits) :
    b1.do_op op b2 = none := by
  rw [Bitv.do_op, if_pos h]

theorem do_op_kind_ne (b1 b2 : Bitv) (op : Op)
    (h : b1.isSmallRep ≠ b2.isSmallRep) : b1.do_op op b2 = none := by
  rcases b1 with ⟨rep1, n1⟩
  rcases b2 with ⟨rep2, n2⟩
  cases rep1 <;> cases rep2 <;>
    first
    | exact absurd rfl h
    | (rcases eq_or_ne n1 n2 with hn | hn
       · rw [Bitv.do_op, if_neg (by simp [hn])]
       · rw [Bitv.do_op, if_pos hn])

theorem do_op_spec_all (b1 b2 : Bitv) (hwf1 : b1.wf) (hwf2 : b2.wf)
    (hn : b1.nbits = b2.nbits) (hk : b1.isSmallRep = b2.isSmallRep) :
    ∀ op : Op, ∃ r, b1.do_op op b2 = some r ∧ r.1.nbits = b1.nbits ∧
      (∀ i, i < b1.nbits → r.1.get i = op.boolFn (b1.get i) (b2.get i)) ∧
      (r.2 = true ↔ ∃ i, i < b1.nbits ∧ r.1.get i ≠ b1.get i) := by
  intro op
  rcases b1 with ⟨rep1, n1⟩
  rcases b2 with ⟨rep2, n2⟩
  dsimp only at hn ⊢
  subst hn
  cases rep1 with
  | Small s1 =>
    cases rep2 with
    | Big _ => simp [Bitv.isSmallRep] at hk
    | Small s2 =>
      have hn1 : n1 ≤ wordBits := hwf1
      obtain ⟨hbits, hget, hch⟩ :=
        bits_op_spec s1 s2 n1 op.wordFn op.boolFn (op_bitwise op) hn1
      exact ⟨(⟨BitvVariant.Small (s1.bits_op s2.bits n1 op.wordFn).1, n1⟩,
        (s1.bits_op s2.bits n1 op.wordFn).2),
        do_op_small s1 s2 n1 op, rfl, hget, hch⟩
  | Big bb1 =>
    cases rep2 with
    | Small _ => simp [Bitv.isSmallRep] at hk
    | Big bb2 =>
      obtain ⟨hproc, hlen, hget, hch⟩ :=
        process_spec bb1 bb2 n1 op.wordFn op.boolFn (op_bitwise op) hwf1 hwf2
      refine ⟨(⟨BitvVariant.Big
        ⟨(processAux n1 op.wordFn 0 bb1.storage bb2.storage).1⟩, n1⟩,
        (processAux n1 op.wordFn 0 bb1.storage bb2.storage).2), ?_, rfl,
        hget, hch⟩
      rw [do_op_big, hproc]
      rfl

/-- C4 counterexample: a Compact and an Expanded bit vector of the same
length 64 exist (`Bitv::new(64, false)` and `BitvSet::new().unwrap()`), and
`union` on this equal-length pair computes nothing at all — it hits the fatal
"different sizes" failure — contradicting the claim that the operations
compute a per-index result for every pair of equal length. -/
theorem union_equal_length_mixed_kind_fails :
    (Bitv.new wordBits false).nbits = BitvSet.new.unwrap.nbits ∧
    (Bitv.new wordBits false).union BitvSet.new.unwrap = none :=
  ⟨rfl, rfl⟩

/-- C4 (amended): for every pair of well-formed bit vectors of equal length
`nbits` and identical representation kind, `union`, `intersect`, `difference`
and `assign` succeed and compute, at every logical index `i < nbits`, the
boolean OR / AND / AND-NOT / copy of the two operand bits into the result
(the second operand is untouched — the model consumes it read-only), and the
returned flag is `true` iff at least one logical bit of `self` actually
changed. -/
theorem binary_ops_spec (b1 b2 : Bitv) (hwf1 : b1.wf) (hwf2 : b2.wf)
    (hn : b1.nbits = b2.nbits) (hk : b1.isSmallRep = b2.isSmallRep) :
    (∃ r, b1.union b2 = some r ∧ r.1.nbits = b1.nbits ∧
      (∀ i, i < b1.nbits → r.1.get i = (b1.get i || b2.get i)) ∧
      (r.2 = true ↔ ∃ i, i < b1.nbits ∧ r.1.get i ≠ b1.get i)) ∧
    (∃ r, b1.intersect b2 = some r ∧ r.1.nbits = b1.nbits ∧
      (∀ i, i < b1.nbits → r.1.get i = (b1.get i && b2.get i)) ∧
      (r.2 = true ↔ ∃ i, i < b1.nbits ∧ r.1.get i ≠ b1.get i)) ∧
    (∃ r, b1.difference b2 = some r ∧ r.1.nbits = b1.nbits ∧
      (∀ i, i < b1.nbits → r.1.get i = (b1.get i && !b2.get i)) ∧
      (r.2 = true ↔ ∃ i, i < b1.nbits ∧ r.1.get i ≠ b1.get i)) ∧
    (∃ r, b1.assign b2 = some r ∧ r.1.nbits = b1.nbits ∧
      (∀ i, i < b1.nbits → r.1.get i = b2.get i) ∧
      (r.2 = true ↔ ∃ i, i < b1.nbits ∧ r.1.get i ≠ b1.get i)) :=
  ⟨do_op_spec_all b1 b2 hwf1 hwf2 hn hk Op.Union,
   do_op_spec_all b1 b2 hwf1 hwf2 hn hk Op.Intersect,
   do_op_spec_all b1 b2 hwf1 hwf2 hn hk Op.Difference,
   do_op_spec_all b1 b2 hwf1 hwf2 hn hk Op.Assign⟩

/-- C4 witness: the amended union specification instantiated at the concrete
pair `Bitv::new(3, true)`, `Bitv::new(3, false)`. -/
theorem binary_ops_spec_witness :
    ∃ r, (Bitv.new 3 true).union (Bitv.new 3 false) = some r ∧
      r.1.nbits = (Bitv.new 3 true).nbits ∧
      (∀ i, i < (Bitv.new 3 true).nbits →
        r.1.get i = ((Bitv.new 3 true).get i || (Bitv.new 3 false).get i)) ∧
      (r.2 = true ↔ ∃ i, i < (Bitv.new 3 true).nbits ∧
        r.1.get i ≠ (Bitv.new 3 true).get i) :=
  (binary_ops_spec (Bitv.new 3 true) (Bitv.new 3 false) (new_wf 3 true)
    (new_wf 3 false) rfl rfl).1

/-- C5: each of `union`, `intersect`, `assign` and `difference` fails fatally
(producing no result and no mutation) on every pair whose lengths differ or
whose representation kinds differ; and for two well-formed vectors with equal
`nbits` and identical representation kind the failure path is unreachable —
every operation produces a result. -/
theorem do_op_mismatch_spec :
    (∀ b1 b2 : Bitv, b1.nbits ≠ b2.nbits ∨ b1.isSmallRep ≠ b2.isSmallRep →
      b1.union b2 = none ∧ b1.intersect b2 = none ∧
      b1.assign b2 = none ∧ b1.difference b2 = none) ∧
    (∀ b1 b2 : Bitv, b1.wf → b2.wf → b1.nbits = b2.nbits →
      b1.isSmallRep = b2.isSmallRep →
      (b1.union b2).isSome ∧ (b1.intersect b2).isSome ∧
      (b1.assign b2).isSome ∧ (b1.difference b2).isSome) := by
  constructor
  · intro b1 b2 h
    rcases h with h | h
    · exact ⟨do_op_nbits_ne _ _ _ h, do_op_nbits_ne _ _ _ h,
        do_op_nbits_ne _ _ _ h, do_op_nbits_ne _ _ _ h⟩
    · exact ⟨do_op_kind_ne _ _ _ h, do_op_kind_ne _ _ _ h,
        do_op_kind_ne _ _ _ h, do_op_kind_ne _ _ _ h⟩
  · intro b1 b2 hwf1 hwf2 hn hk
    have hall : ∀ op : Op, (b1.do_op op b2).isSome := by
      intro op
      obtain ⟨r, hr, _⟩ := do_op_spec_all b1 b2 hwf1 hwf2 hn hk op
      rw [hr]
      rfl
    exact ⟨hall Op.Union, hall Op.Intersect, hall Op.Assign,
      hall Op.Difference⟩

/-- C5 witness: mismatched lengths give a fatal failure, mismatched kinds of
equal length give a fatal failure, and a well-formed equal-kind pair
succeeds. -/
theorem do_op_mismatch_spec_witness :
    (Bitv.new 3 false).union (Bitv.new 5 false) = none ∧
    (Bitv.new wordBits false).intersect BitvSet.new.unwrap = none ∧
    ((Bitv.new 3 false).union (Bitv.new 3 true)).isSome :=
  ⟨(do_op_mismatch_spec.1 _ _ (Or.inl (by decide))).1,
   (do_op_mismatch_spec.1 _ _ (Or.inr (by decide))).2.1,
   (do_op_mismatch_spec.2 _ _ (new_wf 3 false) (new_wf 3 true) rfl rfl).1⟩

theorem replicate_getD_zero (m j : Nat) :
    (List.replicate m (0:Nat)).getD j 0 = 0 := by
  by_cases h : j < m
  · rw [getD_replicate _ _ _ h]
  · exact getD_of_length_le _ _ (by simpa using not_lt.mp h)

theorem vecGrow_length (ws : List Nat) (n x : Nat) :
    (vecGrow ws n x).length = max ws.length n := by
  simp [vecGrow]
  omega

theorem vecGrow_getD_lt (ws : List Nat) (n x i : Nat) (h : i < ws.length) :
    (vecGrow ws n x).getD i 0 = ws.getD i 0 :=
  List.getD_append _ _ _ _ h

theorem vecGrow_getD_ge (ws : List Nat) (n i : Nat) (h : ws.length ≤ i) :
    (vecGrow ws n 0).getD i 0 = 0 := by
  rw [vecGrow, List.getD_append_right _ _ _ _ h, replicate_getD_zero]

theorem contains_eq_decide (s : BitvSet) (v : Nat) :
    s.contains v =
      (decide (v < s.bitv.storage.length * wordBits) &&
        (s.bitv.storage.getD (v / wordBits) 0).testBit (v % wordBits)) := by
  rw [BitvSet.contains, bigGet_testBit]

theorem contains_false_of_ge (s : BitvSet) (v : Nat) (h : s.capacity ≤ v) :
    s.contains v = false := by
  have h' : ¬(v < s.bitv.storage.length * wordBits) := not_lt.mpr h
  rw [contains_eq_decide, decide_eq_false h', Bool.false_and]

theorem insert_eq_of_ge (s : BitvSet) (v : Nat) (h : s.capacity ≤ v) :
    s.insert v =
      (⟨(s.size + 1) % wordMod,
        BigBitv.set
          ⟨vecGrow s.bitv.storage (max v (s.capacity * 2) / wordBits + 1) 0⟩
          v true⟩, true) := by
  simp only [BitvSet.insert, contains_false_of_ge s v h, Bool.false_eq_true,
    if_false, if_pos h]

/-- C1: inserting a key `v` at or above the capacity grows the word storage
to exactly `max(v, capacity()*2) / WORD_BITS + 1` words, fills the new words
with zero (except for the single freshly set bit), sets the bit for `v`,
increments `size`, and returns `true`; inserting a key that is already
present returns `false` and changes nothing.  (`size + 1 < 2^64` keeps the
`uint` size counter from wrapping; the storage can never hold that many set
bits in a real process.) -/
theorem insert_spec (s : BitvSet) (v : Nat) :
    (s.contains v = true → s.insert v = (s, false)) ∧
    (s.capacity ≤ v → s.size + 1 < wordMod →
      (s.insert v).2 = true ∧
      (s.insert v).1.bitv.storage.length =
        max v (s.capacity * 2) / wordBits + 1 ∧
      (s.insert v).1.size = s.size + 1 ∧
      (s.insert v).1.contains v = true ∧
      (∀ j, s.bitv.storage.length ≤ j →
        j < max v (s.capacity * 2) / wordBits + 1 → j ≠ v / wordBits →
        (s.insert v).1.bitv.storage.getD j 0 = 0) ∧
      (s.insert v).1.bitv.storage.getD (v / wordBits) 0 =
        1 <<< (v % wordBits) ∧
      (∀ u, u ≠ v → (s.insert v).1.contains u = s.contains u)) := by
  constructor
  · intro h
    rw [BitvSet.insert, if_pos h]
  · intro h2 hsz
    have hcap : s.capacity = s.bitv.storage.length * wordBits := rfl
    have hvlen : s.bitv.storage.length ≤ v / wordBits := by
      rw [hcap] at h2
      simp only [wordBits] at h2 ⊢
      omega
    have hdivle : v / wordBits ≤ max v (s.capacity * 2) / wordBits :=
      Nat.div_le_div_right (le_max_left _ _)
    have hnewgt : s.bitv.storage.length < max v (s.capacity * 2) / wordBits + 1 := by
      omega
    have hvnew : v / wordBits < max v (s.capacity * 2) / wordBits + 1 := by
      omega
    rw [insert_eq_of_ge s v h2]
    have hglen : (vecGrow s.bitv.storage
        (max v (s.capacity * 2) / wordBits + 1) 0).length =
        max v (s.capacity * 2) / wordBits + 1 := by
      rw [vecGrow_length]
      omega
    have hgword : (vecGrow s.bitv.storage
        (max v (s.capacity * 2) / wordBits + 1) 0).getD (v / wordBits) 0 = 0 :=
      vecGrow_getD_ge _ _ _ hvlen
    have hsetword : (BigBitv.set
        ⟨vecGrow s.bitv.storage (max v (s.capacity * 2) / wordBits + 1) 0⟩
        v true).storage.getD (v / wordBits) 0 = 1 <<< (v % wordBits) := by
      rw [bigSet_true_storage]
      show (List.set _ _ _).getD _ 0 = _
      rw [getD_set_self _ _ _ (by rw [hglen]; exact hvnew)]
      rw [hgword, Nat.zero_or]
    have hvcap : v < (max v (s.capacity * 2) / wordBits + 1) * wordBits := by
      simp only [wordBits] at hvnew ⊢
      omega
    refine ⟨rfl, ?_, Nat.mod_eq_of_lt hsz, ?_, ?_, hsetword, ?_⟩
    · show (BigBitv.set
          ⟨vecGrow s.bitv.storage (max v (s.capacity * 2) / wordBits + 1) 0⟩
          v true).storage.length = max v (s.capacity * 2) / wordBits + 1
      rw [bigSet_length]
      exact hglen
    · rw [contains_eq_decide]
      dsimp only
      rw [hsetword, bigSet_length]
      dsimp only
      rw [hglen, Nat.one_shiftLeft, Nat.testBit_two_pow_self,
        decide_eq_true hvcap, Bool.true_and]
    · intro j hj1 hj2 hj3
      dsimp only
      rw [bigSet_true_storage]
      dsimp only
      rw [getD_set_ne _ _ _ _ (Ne.symm hj3)]
      exact vecGrow_getD_ge _ _ _ hj1
    · intro u hu
      rw [contains_eq_decide, contains_eq_decide]
      dsimp only
      rw [bigSet_true_storage]
      dsimp only
      rw [List.length_set, hglen]
      by_cases hku : u / wordBits = v / wordBits
      · have humod : ¬(v % wordBits = u % wordBits) := by
          intro habs
          apply hu
          have hku' := hku
          simp only [wordBits] at hku' habs ⊢
          omega
        have hbig : s.bitv.storage.length * wordBits ≤ u := by
          have hku' := hku
          have hvlen' := hvlen
          simp only [wordBits] at hku' hvlen' ⊢
          omega
        rw [hku, getD_set_self _ _ _ (by rw [hglen]; exact hvnew), hgword,
          Nat.zero_or, Nat.one_shiftLeft, Nat.testBit_two_pow,
          decide_eq_false humod, Bool.and_false,
          decide_eq_false (not_lt.mpr hbig), Bool.false_and]
      · rw [getD_set_ne _ _ _ _ (Ne.symm hku)]
        by_cases hul : u / wordBits < s.bitv.storage.length
        · rw [vecGrow_getD_lt _ _ _ _ hul]
          have hu1 : u < s.bitv.storage.length * wordBits := by
            simp only [wordBits] at hul ⊢
            omega
          have hu2 : u < (max v (s.capacity * 2) / wordBits + 1) * wordBits := by
            have hnewgt' := hnewgt
            simp only [wordBits] at hul hnewgt' ⊢
            omega
          rw [decide_eq_true hu1, decide_eq_true hu2, Bool.true_and]
        · have hge : s.bitv.storage.length ≤ u / wordBits := not_lt.mp hul
          rw [vecGrow_getD_ge _ _ _ hge, getD_of_length_le _ _ hge,
            Nat.zero_testBit, Bool.and_false, Bool.and_false]

/-- C1 witness: inserting the already-present key 3 is a no-op returning
`false`; inserting 100 into the fresh one-word set grows the storage to
`max(100, 128)/64 + 1 = 3` words, zero-filled except the bit for 100, with
`size` going to 1 and `true` returned. -/
theorem insert_spec_witness :
    ((BitvSet.new.insert 3).1.insert 3 = ((BitvSet.new.insert 3).1, false)) ∧
    (BitvSet.new.insert 100).2 = true ∧
    (BitvSet.new.insert 100).1.bitv.storage.length =
      max 100 (BitvSet.new.capacity * 2) / wordBits + 1 ∧
    (BitvSet.new.insert 100).1.size = BitvSet.new.size + 1 ∧
    (BitvSet.new.insert 100).1.contains 100 = true ∧
    (∀ j, BitvSet.new.bitv.storage.length ≤ j →
      j < max 100 (BitvSet.new.capacity * 2) / wordBits + 1 →
      j ≠ 100 / wordBits →
      (BitvSet.new.insert 100).1.bitv.storage.getD j 0 = 0) ∧
    (BitvSet.new.insert 100).1.bitv.storage.getD (100 / wordBits) 0 =
      1 <<< (100 % wordBits) ∧
    (∀ u, u ≠ 100 →
      (BitvSet.new.insert 100).1.contains u = BitvSet.new.contains u) :=
  ⟨(insert_spec (BitvSet.new.insert 3).1 3).1 (by decide),
   (insert_spec BitvSet.new 100).2 (by decide) (by decide)⟩

theorem shrinkIdx_le (ws : List Nat) : (n : Nat) → shrinkIdx ws n ≤ n
  | 0 => Nat.le_refl _
  | 1 => Nat.le_refl _
  | n + 2 => by
    rw [shrinkIdx]
    split
    · exact Nat.le_trans (shrinkIdx_le ws (n + 1)) (by omega)
    · exact Nat.le_refl _

theorem shrinkIdx_pos (ws : List Nat) : (n : Nat) → 1 ≤ n → 1 ≤ shrinkIdx ws n
  | 0 => by omega
  | 1 => fun _ => Nat.le_refl _
  | n + 2 => by
    intro _
    rw [shrinkIdx]
    split
    · exact shrinkIdx_pos ws (n + 1) (by omega)
    · omega

theorem shrinkIdx_zero_tail (ws : List Nat) :
    (n : Nat) → ∀ j, shrinkIdx ws n ≤ j → j < n → ws.getD j 0 = 0
  | 0 => by
    intro j h1 h2
    omega
  | 1 => by
    intro j h1 h2
    rw [shrinkIdx] at h1
    omega
  | n + 2 => by
    intro j h1 h2
    rw [shrinkIdx] at h1
    by_cases hz : ws.getD (n + 1) 0 = 0
    · rw [if_pos hz] at h1
      by_cases hj : j = n + 1
      · rw [hj]
        exact hz
      · exact shrinkIdx_zero_tail ws (n + 1) j h1 (by omega)
    · rw [if_neg hz] at h1
      omega

theorem shrinkIdx_all_zero (ws : List Nat) :
    (n : Nat) → 1 ≤ n → (∀ j, j < n → ws.getD j 0 = 0) → shrinkIdx ws n = 1
  | 0 => by
    intro h _
    omega
  | 1 => fun _ _ => rfl
  | n + 2 => by
    intro _ hz
    rw [shrinkIdx, if_pos (hz (n + 1) (by omega))]
    exact shrinkIdx_all_zero ws (n + 1) (by omega) fun j hj => hz j (by omega)

theorem shrinkIdx_one_or_last (ws : List Nat) :
    (n : Nat) → 1 ≤ n →
      shrinkIdx ws n = 1 ∨ ws.getD (shrinkIdx ws n - 1) 0 ≠ 0
  | 0 => fun h => absurd h (by omega)
  | 1 => fun _ => Or.inl rfl
  | n + 2 => by
    intro _
    rw [shrinkIdx]
    by_cases hz : ws.getD (n + 1) 0 = 0
    · rw [if_pos hz]
      exact shrinkIdx_one_or_last ws (n + 1) (by omega)
    · rw [if_neg hz]
      exact Or.inr hz

theorem getD_mem (l : List Nat) (k : Nat) (h : k < l.length) :
    l.getD k 0 ∈ l := by
  rw [List.getD_eq_getElem?_getD, List.getElem?_eq_getElem h]
  exact List.getElem_mem h

theorem remove_eq_of_contains (s : BitvSet) (v : Nat)
    (h : s.contains v = true) :
    s.remove v =
      (⟨(s.size + (wordMod - 1)) % wordMod,
        ⟨(s.bitv.set v false).storage.take
          (shrinkIdx (s.bitv.set v false).storage
            (s.bitv.set v false).storage.length)⟩⟩, true) := by
  simp only [BitvSet.remove, h, Bool.not_true, Bool.false_eq_true, if_false]

/-- C8: removing a present key `v` clears the bit, decrements `size`,
truncates all trailing all-zero words (but never below one word) while
preserving every other member, and returns `true`; when `v` was the sole
member, the resulting capacity is exactly one word's bit width.  The
truncation is maximal: the resulting storage is a prefix of the bit-cleared
storage, every word of the bit-cleared storage at or beyond the kept length
is zero, and the last kept word is nonzero unless exactly one word remains.
(`1 ≤ size`, `size < 2^64` and word-sized storage entries hold for every set
the library itself builds.) -/
theorem remove_spec (s : BitvSet) (v : Nat) (h : s.contains v = true)
    (hsz1 : 1 ≤ s.size) (hsz2 : s.size < wordMod)
    (hwords : ∀ w ∈ s.bitv.storage, w < wordMod) :
    (s.remove v).2 = true ∧
    (s.remove v).1.size = s.size - 1 ∧
    1 ≤ (s.remove v).1.bitv.storage.length ∧
    (s.remove v).1.contains v = false ∧
    (∀ u, u ≠ v → (s.remove v).1.contains u = s.contains u) ∧
    ((∀ u, u ≠ v → s.contains u = false) →
      (s.remove v).1.capacity = wordBits) ∧
    (s.remove v).1.bitv.storage =
      (s.bitv.set v false).storage.take (s.remove v).1.bitv.storage.length ∧
    (∀ j, (s.remove v).1.bitv.storage.length ≤ j →
      (s.bitv.set v false).storage.getD j 0 = 0) ∧
    ((s.remove v).1.bitv.storage.length = 1 ∨
      (s.remove v).1.bitv.storage.getD
        ((s.remove v).1.bitv.storage.length - 1) 0 ≠ 0) := by
  have hU : wordMod = 18446744073709551616 := by norm_num [wordMod, wordBits]
  have hmlt : ∀ a : Nat, a % wordBits < wordBits := fun a =>
    Nat.mod_lt a (by norm_num [wordBits])
  obtain ⟨hvlt', hbit⟩ : v < s.bitv.storage.length * wordBits ∧
      (s.bitv.storage.getD (v / wordBits) 0).testBit (v % wordBits) = true := by
    have hh := h
    rw [contains_eq_decide, Bool.and_eq_true, decide_eq_true_eq] at hh
    exact hh
  have hvdiv : v / wordBits < s.bitv.storage.length := by
    simp only [wordBits] at hvlt' ⊢
    omega
  have hlen1 : 1 ≤ s.bitv.storage.length :=
    lt_of_le_of_lt (Nat.zero_le _) hvdiv
  rw [remove_eq_of_contains s v h]
  set st := (s.bitv.set v false).storage with hstdef
  have hstor : st = s.bitv.storage.set (v / wordBits)
      (s.bitv.storage.getD (v / wordBits) 0 &&&
        ucompl (1 <<< (v % wordBits))) := bigSet_false_storage s.bitv v
  have hstlen : st.length = s.bitv.storage.length := bigSet_length s.bitv v false
  have hst_v : (st.getD (v / wordBits) 0).testBit (v % wordBits) = false := by
    rw [hstor, getD_set_self _ _ _ hvdiv,
      testBit_and_compl_two_pow _ (hmlt v)]
    simp
  have hst_other : ∀ k p, p < wordBits →
      ¬(k = v / wordBits ∧ p = v % wordBits) →
      (st.getD k 0).testBit p = (s.bitv.storage.getD k 0).testBit p := by
    intro k p hp hne
    by_cases hk : k = v / wordBits
    · have hpb : p ≠ v % wordBits := fun habs => hne ⟨hk, habs⟩
      rw [hstor, hk, getD_set_self _ _ _ hvdiv,
        testBit_and_compl_two_pow _ hp]
      simp [hpb]
    · rw [hstor, getD_set_ne _ _ _ _ fun habs => hk habs.symm]
  have hile : shrinkIdx st st.length ≤ s.bitv.storage.length := by
    have := shrinkIdx_le st st.length
    omega
  have hipos : 1 ≤ shrinkIdx st st.length :=
    shrinkIdx_pos st st.length (by omega)
  refine ⟨rfl, ?_, ?_, ?_, ?_, ?_, ?_, ?_, ?_⟩
  · show (s.size + (wordMod - 1)) % wordMod = s.size - 1
    rw [hU] at hsz2 ⊢
    omega
  · show 1 ≤ (st.take (shrinkIdx st st.length)).length
    rw [List.length_take]
    omega
  · rw [contains_eq_decide]
    dsimp only
    rw [List.length_take]
    by_cases hvi : v / wordBits < shrinkIdx st st.length
    · rw [getD_take _ _ _ hvi, hst_v, Bool.and_false]
    · have hnd : ¬(v < min (shrinkIdx st st.length) st.length * wordBits) := by
        simp only [wordBits] at hvi ⊢
        omega
      rw [decide_eq_false hnd, Bool.false_and]
  · intro u hu
    have hne : ∀ hk : u / wordBits = v / wordBits,
        ¬(u / wordBits = v / wordBits ∧ u % wordBits = v % wordBits) := by
      intro _ habs
      obtain ⟨h1, h2⟩ := habs
      apply hu
      simp only [wordBits] at h1 h2 ⊢
      omega
    have hneu : ¬(u / wordBits = v / wordBits ∧ u % wordBits = v % wordBits) := by
      intro habs
      obtain ⟨h1, h2⟩ := habs
      apply hu
      simp only [wordBits] at h1 h2 ⊢
      omega
    rw [contains_eq_decide, contains_eq_decide]
    dsimp only
    rw [List.length_take]
    by_cases hki : u / wordBits < shrinkIdx st st.length
    · rw [getD_take _ _ _ hki, hst_other _ _ (hmlt u) hneu]
      have hd1 : u < min (shrinkIdx st st.length) st.length * wordBits := by
        simp only [wordBits] at hki ⊢
        have := hstlen
        omega
      have hd2 : u < s.bitv.storage.length * wordBits := by
        have hkl : u / wordBits < s.bitv.storage.length :=
          lt_of_lt_of_le hki hile
        simp only [wordBits] at hkl ⊢
        omega
      rw [decide_eq_true hd1, decide_eq_true hd2, Bool.true_and]
    · have hd1 : ¬(u < min (shrinkIdx st st.length) st.length * wordBits) := by
        simp only [wordBits] at hki ⊢
        omega
      rw [decide_eq_false hd1, Bool.false_and]
      by_cases hkl : u / wordBits < s.bitv.storage.length
      · have hz : st.getD (u / wordBits) 0 = 0 :=
          shrinkIdx_zero_tail st st.length _ (by omega) (by omega)
        have hbits : (s.bitv.storage.getD (u / wordBits) 0).testBit
            (u % wordBits) = false := by
          rw [← hst_other _ _ (hmlt u) hneu, hz, Nat.zero_testBit]
        rw [hbits, Bool.and_false]
      · have hd2 : ¬(u < s.bitv.storage.length * wordBits) := by
          simp only [wordBits] at hkl ⊢
          omega
        rw [decide_eq_false hd2, Bool.false_and]
  · intro honly
    have hallz : ∀ j, j < st.length → st.getD j 0 = 0 := by
      intro j hj
      have hjl : j < s.bitv.storage.length := by omega
      have hwlt : st.getD j 0 < wordMod := by
        by_cases hjv : j = v / wordBits
        · rw [hstor, hjv, getD_set_self _ _ _ hvdiv, wordMod_eq]
          apply Nat.and_lt_two_pow
          rw [ucompl]
          apply Nat.xor_lt_two_pow
          · rw [wordMod_eq]
            have : (0:Nat) < 2 ^ 64 := by positivity
            omega
          · rw [Nat.one_shiftLeft]
            exact Nat.pow_lt_pow_right (by norm_num)
              (by simpa [wordBits] using hmlt v)
        · rw [hstor, getD_set_ne _ _ _ _ fun habs => hjv habs.symm]
          exact hwords _ (getD_mem _ _ hjl)
      apply Nat.eq_of_testBit_eq
      intro p
      rw [Nat.zero_testBit]
      by_cases hp : p < wordBits
      · by_cases hup : j = v / wordBits ∧ p = v % wordBits
        · obtain ⟨h1, h2⟩ := hup
          rw [h1, h2]
          exact hst_v
        · rw [hst_other j p hp hup]
          have hune : wordBits * j + p ≠ v := by
            intro habs
            apply hup
            constructor <;> (simp only [wordBits] at habs hp ⊢; omega)
          have hcu := honly _ hune
          have hlt : wordBits * j + p < s.bitv.storage.length * wordBits := by
            simp only [wordBits] at hp hjl ⊢
            omega
          rw [contains_eq_decide, decide_eq_true hlt, Bool.true_and] at hcu
          have hdiv : (wordBits * j + p) / wordBits = j := by
            simp only [wordBits] at hp ⊢
            omega
          have hmod : (wordBits * j + p) % wordBits = p := by
            simp only [wordBits] at hp ⊢
            omega
          rw [hdiv, hmod] at hcu
          exact hcu
      · apply Nat.testBit_lt_two_pow
        refine lt_of_lt_of_le hwlt ?_
        rw [wordMod_eq]
        exact Nat.pow_le_pow_right (by norm_num)
          (by simpa [wordBits] using not_lt.mp hp)
    have hone : shrinkIdx st st.length = 1 :=
      shrinkIdx_all_zero st st.length (by omega) hallz
    show (st.take (shrinkIdx st st.length)).length * wordBits = wordBits
    rw [hone, List.length_take]
    have hmin : min 1 st.length = 1 := by omega
    rw [hmin, Nat.one_mul]
  · show st.take (shrinkIdx st st.length) =
      st.take ((st.take (shrinkIdx st st.length)).length)
    rw [List.length_take]
    have hmin : min (shrinkIdx st st.length) st.length =
        shrinkIdx st st.length := by omega
    rw [hmin]
  · intro j hj
    show st.getD j 0 = 0
    rw [List.length_take] at hj
    by_cases hjl : j < st.length
    · exact shrinkIdx_zero_tail st st.length j (by omega) hjl
    · rw [List.getD_eq_getElem?_getD, List.getElem?_eq_none (by omega)]
      rfl
  · rcases shrinkIdx_one_or_last st st.length (by omega) with hone | hlast
    · left
      show (st.take (shrinkIdx st st.length)).length = 1
      rw [hone, List.length_take]
      omega
    · right
      show (st.take (shrinkIdx st st.length)).getD
        ((st.take (shrinkIdx st st.length)).length - 1) 0 ≠ 0
      rw [List.length_take]
      have hmin : min (shrinkIdx st st.length) st.length =
          shrinkIdx st st.length := by omega
      rw [hmin, getD_take st _ _ (by omega)]
      exact hlast

/-- C8 witness: removing 1000 from the two-element set `{5, 1000}` (whose
storage had grown to 16 words) returns `true`, decrements `size`, clears
membership of 1000 while keeping 5, and truncates all 15 trailing all-zero
words: the resulting storage is the maximal-truncation prefix of the
bit-cleared storage, everything beyond the kept length is zero, and the
result is one word (or ends in a nonzero word). -/
theorem remove_spec_witness :
    ((((BitvSet.new.insert 5).1.insert 1000).1.remove 1000).2 = true ∧
    (((BitvSet.new.insert 5).1.insert 1000).1.remove 1000).1.size =
      ((BitvSet.new.insert 5).1.insert 1000).1.size - 1 ∧
    1 ≤ (((BitvSet.new.insert 5).1.insert 1000).1.remove
      1000).1.bitv.storage.length ∧
    (((BitvSet.new.insert 5).1.insert 1000).1.remove 1000).1.contains 1000 =
      false ∧
    (∀ u, u ≠ 1000 →
      (((BitvSet.new.insert 5).1.insert 1000).1.remove 1000).1.contains u =
        ((BitvSet.new.insert 5).1.insert 1000).1.contains u) ∧
    ((∀ u, u ≠ 1000 →
        ((BitvSet.new.insert 5).1.insert 1000).1.contains u = false) →
      (((BitvSet.new.insert 5).1.insert 1000).1.remove 1000).1.capacity =
        wordBits) ∧
    (((BitvSet.new.insert 5).1.insert 1000).1.remove 1000).1.bitv.storage =
      (((BitvSet.new.insert 5).1.insert 1000).1.bitv.set 1000
        false).storage.take
        ((((BitvSet.new.insert 5).1.insert 1000).1.remove
          1000).1.bitv.storage.length) ∧
    (∀ j, (((BitvSet.new.insert 5).1.insert 1000).1.remove
        1000).1.bitv.storage.length ≤ j →
      (((BitvSet.new.insert 5).1.insert 1000).1.bitv.set 1000
        false).storage.getD j 0 = 0) ∧
    ((((BitvSet.new.insert 5).1.insert 1000).1.remove
        1000).1.bitv.storage.length = 1 ∨
      (((BitvSet.new.insert 5).1.insert 1000).1.remove
        1000).1.bitv.storage.getD
        ((((BitvSet.new.insert 5).1.insert 1000).1.remove
          1000).1.bitv.storage.length - 1) 0 ≠ 0)) :=
  remove_spec ((BitvSet.new.insert 5).1.insert 1000).1 1000 (by decide)
    (by decide) (by decide) (by decide)

theorem otherOpAux_length (f : Nat → Nat → Nat) :
    ∀ (ws vs : List Nat) (size : Nat),
      (otherOpAux f ws vs size).1.length = ws.length := by
  intro ws
  induction ws with
  | nil =>
    intro vs size
    cases vs <;> rfl
  | cons w ws ih =>
    intro vs size
    cases vs with
    | nil => rfl
    | cons v vs =>
      show ((f w v) :: _).length = _
      simp [ih]

theorem otherOpAux_getD_tail (f : Nat → Nat → Nat) :
    ∀ (ws vs : List Nat) (size k : Nat), vs.length ≤ k →
      (otherOpAux f ws vs size).1.getD k 0 = ws.getD k 0 := by
  intro ws
  induction ws with
  | nil =>
    intro vs size k hk
    cases vs <;> rfl
  | cons w ws ih =>
    intro vs size k hk
    cases vs with
    | nil => rfl
    | cons v vs =>
      cases k with
      | zero => simp at hk
      | succ k =>
        show ((f w v) :: _).getD (k + 1) 0 = _
        rw [List.getD_cons_succ, List.getD_cons_succ]
        exact ih vs _ k (by simpa using hk)

theorem otherOpAux_drop (f : Nat → Nat → Nat) :
    ∀ (ws vs : List Nat) (size : Nat),
      (otherOpAux f ws vs size).1.drop vs.length =
        ws.drop vs.length := by
  intro ws
  induction ws with
  | nil =>
    intro vs size
    cases vs <;> simp [otherOpAux]
  | cons w ws ih =>
    intro vs size
    cases vs with
    | nil => rfl
    | cons v vs =>
      show (otherOpAux f ws vs _).1.drop vs.length =
        (w :: ws).drop (v :: vs).length
      rw [List.length_cons, List.drop_succ_cons]
      exact ih vs _

/-- C10: when set A's word storage is strictly longer than set B's,
`A.intersect_with(B)` combines only the word indices present in B: the storage
length is unchanged, A's tail words beyond B's word count are untouched, and
every member of A with index at least `B.words * WORD_BITS` remains in A
afterwards even though it is not a member of B. -/
theorem intersect_with_tail_spec (s other : BitvSet)
    (hlen : other.bitv.storage.length < s.bitv.storage.length) :
    (s.intersect_with other).bitv.storage.length = s.bitv.storage.length ∧
    (s.intersect_with other).bitv.storage.drop other.bitv.storage.length =
      s.bitv.storage.drop other.bitv.storage.length ∧
    (∀ u, other.bitv.storage.length * wordBits ≤ u →
      (s.intersect_with other).contains u = s.contains u ∧
      other.contains u = false) := by
  have hnogrow : ¬(s.capacity < other.capacity) := by
    show ¬(s.bitv.storage.length * wordBits <
      other.bitv.storage.length * wordBits)
    simp only [wordBits]
    omega
  have heq : s.intersect_with other =
      ⟨(otherOpAux (fun w1 w2 => w1 &&& w2) s.bitv.storage
          other.bitv.storage s.size).2,
        ⟨(otherOpAux (fun w1 w2 => w1 &&& w2) s.bitv.storage
            other.bitv.storage s.size).1⟩⟩ := by
    simp only [BitvSet.intersect_with, BitvSet.other_op, if_neg hnogrow]
  rw [heq]
  refine ⟨otherOpAux_length _ _ _ _, otherOpAux_drop _ _ _ _, ?_⟩
  intro u hu
  constructor
  · rw [contains_eq_decide, contains_eq_decide]
    dsimp only
    rw [otherOpAux_length]
    have hk : other.bitv.storage.length ≤ u / wordBits := by
      simp only [wordBits] at hu ⊢
      omega
    rw [otherOpAux_getD_tail _ _ _ _ _ hk]
  · exact contains_false_of_ge other u hu

/-- C10 witness: with A = {3, 200} (four storage words) and B = {3} (one
storage word), intersecting A with B in place keeps A's tail words and keeps
200 ∈ A even though 200 ∉ B. -/
theorem intersect_with_tail_spec_witness :
    ((((BitvSet.new.insert 3).1.insert 200).1.intersect_with
        (BitvSet.new.insert 3).1).bitv.storage.length =
      ((BitvSet.new.insert 3).1.insert 200).1.bitv.storage.length) ∧
    ((((BitvSet.new.insert 3).1.insert 200).1.intersect_with
        (BitvSet.new.insert 3).1).bitv.storage.drop
        (BitvSet.new.insert 3).1.bitv.storage.length =
      ((BitvSet.new.insert 3).1.insert 200).1.bitv.storage.drop
        (BitvSet.new.insert 3).1.bitv.storage.length) ∧
    (∀ u, (BitvSet.new.insert 3).1.bitv.storage.length * wordBits ≤ u →
      ((((BitvSet.new.insert 3).1.insert 200).1.intersect_with
          (BitvSet.new.insert 3).1).contains u =
        ((BitvSet.new.insert 3).1.insert 200).1.contains u) ∧
      (BitvSet.new.insert 3).1.contains u = false) :=
  intersect_with_tail_spec ((BitvSet.new.insert 3).1.insert 200).1
    (BitvSet.new.insert 3).1 (by decide)

/-! Claim C3: the cached size versus the storage popcount. -/

theorem wordMod_lit : wordMod = 18446744073709551616 := by
  norm_num [wordMod, wordBits]

theorem popcountTotal_vecGrow (ws : List Nat) (n : Nat) :
    popcountTotal (vecGrow ws n 0) = popcountTotal ws := by
  rw [vecGrow, popcountTotal_append, popcountTotal_replicate_zero,
    Nat.add_zero]

theorem popcountTotal_map_zero (ws : List Nat) :
    popcountTotal (ws.map fun _ => 0) = 0 := by
  induction ws with
  | nil => rfl
  | cons a l ih => rw [List.map_cons, popcountTotal_cons, nbitsFn_zero, ih]

theorem getD_drop (l : List Nat) (i j : Nat) :
    (l.drop i).getD j 0 = l.getD (i + j) 0 := by
  rw [List.getD_eq_getElem?_getD, List.getD_eq_getElem?_getD,
    List.getElem?_drop]

theorem popcountTotal_take_of_zero_tail (ws : List Nat) (i : Nat)
    (h : ∀ j, i ≤ j → j < ws.length → ws.getD j 0 = 0) :
    popcountTotal (ws.take i) = popcountTotal ws := by
  have hdrop : popcountTotal (ws.drop i) = 0 := by
    apply popcountTotal_zero_elems
    intro j hj
    rw [getD_drop]
    have hjl : i + j < ws.length := by
      rw [List.length_drop] at hj
      omega
    exact h (i + j) (by omega) hjl
  conv_rhs => rw [← List.take_append_drop i ws]
  rw [popcountTotal_append, hdrop, Nat.add_zero]

theorem otherOpAux_size_lt (f : Nat → Nat → Nat) :
    ∀ (ws vs : List Nat) (size : Nat), size < wordMod →
      (otherOpAux f ws vs size).2 < wordMod := by
  intro ws
  induction ws with
  | nil =>
    intro vs size h
    cases vs <;> exact h
  | cons w ws ih =>
    intro vs size h
    cases vs with
    | nil => exact h
    | cons v vs =>
      show (otherOpAux f ws vs _).2 < wordMod
      exact ih vs _ (Nat.mod_lt _ (by norm_num [wordMod, wordBits]))

theorem otherOpAux_size_eq (f : Nat → Nat → Nat) :
    ∀ (ws vs : List Nat) (size : Nat), vs.length ≤ ws.length →
      ((otherOpAux f ws vs size).2 + popcountTotal ws) % wordMod =
        (size + popcountTotal (otherOpAux f ws vs size).1) % wordMod := by
  intro ws
  induction ws with
  | nil =>
    intro vs size hlen
    cases vs with
    | nil => rfl
    | cons v vs => simp at hlen
  | cons w ws ih =>
    intro vs size hlen
    cases vs with
    | nil => rfl
    | cons v vs =>
      have hlen' : vs.length ≤ ws.length := by simpa using hlen
      have hpo := nbitsFn_le w
      have hpn := nbitsFn_le (f w v)
      have hIH := ih vs
        ((size + (nbitsFn (f w v) + (wordMod - nbitsFn w)) % wordMod) % wordMod)
        hlen'
      show ((otherOpAux f ws vs _).2 + popcountTotal (w :: ws)) % wordMod =
        (size + popcountTotal (f w v :: (otherOpAux f ws vs _).1)) % wordMod
      rw [popcountTotal_cons, popcountTotal_cons]
      rw [wordMod_lit] at hIH ⊢
      simp only [wordBits] at hpo hpn
      omega

theorem other_op_core (f : Nat → Nat → Nat) (st vs : List Nat) (size : Nat)
    (hlen : vs.length ≤ st.length)
    (hsize : size = popcountTotal st % wordMod) :
    (otherOpAux f st vs size).2 =
      popcountTotal (otherOpAux f st vs size).1 % wordMod := by
  have h1 := otherOpAux_size_eq f st vs size hlen
  have h2 : (otherOpAux f st vs size).2 < wordMod :=
    otherOpAux_size_lt f st vs size (by
      rw [hsize]
      exact Nat.mod_lt _ (by norm_num [wordMod, wordBits]))
  rw [wordMod_lit] at h1 h2 hsize ⊢
  omega

theorem other_op_preserves (s other : BitvSet) (f : Nat → Nat → Nat)
    (ih : s.size = popcountTotal s.bitv.storage % wordMod) :
    (s.other_op other f).size =
      popcountTotal (s.other_op other f).bitv.storage % wordMod := by
  by_cases hg : s.capacity < other.capacity
  · have heq : s.other_op other f =
        ⟨(otherOpAux f (vecGrow s.bitv.storage (other.capacity / wordBits) 0)
            other.bitv.storage s.size).2,
          ⟨(otherOpAux f (vecGrow s.bitv.storage (other.capacity / wordBits) 0)
              other.bitv.storage s.size).1⟩⟩ := by
      simp only [BitvSet.other_op, if_pos hg]
    rw [heq]
    apply other_op_core
    · rw [vecGrow_length]
      have hcap2 : other.capacity / wordBits = other.bitv.storage.length := by
        show other.bitv.storage.length * wordBits / wordBits = _
        simp only [wordBits]
        omega
      rw [hcap2]
      omega
    · rw [popcountTotal_vecGrow]
      exact ih
  · have heq : s.other_op other f =
        ⟨(otherOpAux f s.bitv.storage other.bitv.storage s.size).2,
          ⟨(otherOpAux f s.bitv.storage other.bitv.storage s.size).1⟩⟩ := by
      simp only [BitvSet.other_op, if_neg hg]
    rw [heq]
    apply other_op_core
    · have hcap : ¬(s.bitv.storage.length * wordBits <
          other.bitv.storage.length * wordBits) := hg
      simp only [wordBits] at hcap ⊢
      omega
    · exact ih

theorem insert_preserves (s : BitvSet) (v : Nat)
    (ih : s.size = popcountTotal s.bitv.storage % wordMod) :
    (s.insert v).1.size =
      popcountTotal (s.insert v).1.bitv.storage % wordMod := by
  by_cases hc : s.contains v = true
  · rw [BitvSet.insert, if_pos hc]
    exact ih
  · have hc' : s.contains v = false := Bool.eq_false_iff.mpr hc
    by_cases hv : s.capacity ≤ v
    · rw [insert_eq_of_ge s v hv]
      dsimp only
      have hvlen : s.bitv.storage.length ≤ v / wordBits := by
        have hx : s.bitv.storage.length * wordBits ≤ v := hv
        simp only [wordBits] at hx ⊢
        omega
      have hdivle : v / wordBits ≤ max v (s.capacity * 2) / wordBits :=
        Nat.div_le_div_right (le_max_left _ _)
      have hvnew : v / wordBits < max v (s.capacity * 2) / wordBits + 1 := by
        omega
      have hglen : (vecGrow s.bitv.storage
          (max v (s.capacity * 2) / wordBits + 1) 0).length =
          max v (s.capacity * 2) / wordBits + 1 := by
        rw [vecGrow_length]
        omega
      have hgword : (vecGrow s.bitv.storage
          (max v (s.capacity * 2) / wordBits + 1) 0).getD (v / wordBits) 0 =
          0 := vecGrow_getD_ge _ _ _ hvlen
      have hbitf : ((vecGrow s.bitv.storage
          (max v (s.capacity * 2) / wordBits + 1) 0).getD
          (v / wordBits) 0).testBit (v % wordBits) = false := by
        rw [hgword, Nat.zero_testBit]
      rw [bigSet_true_storage]
      dsimp only
      have hset := popcountTotal_set
        (vecGrow s.bitv.storage (max v (s.capacity * 2) / wordBits + 1) 0)
        (v / wordBits)
        ((vecGrow s.bitv.storage
          (max v (s.capacity * 2) / wordBits + 1) 0).getD (v / wordBits) 0 |||
          1 <<< (v % wordBits))
        (by rw [hglen]; exact hvnew)
      have hor := nbitsFn_or
        ((vecGrow s.bitv.storage
          (max v (s.capacity * 2) / wordBits + 1) 0).getD (v / wordBits) 0)
        (v % wordBits) (Nat.mod_lt v (by norm_num [wordBits])) hbitf
      have hP := popcountTotal_vecGrow s.bitv.storage
        (max v (s.capacity * 2) / wordBits + 1)
      rw [wordMod_lit] at ih ⊢
      omega
    · have hvlt : v < s.bitv.storage.length * wordBits := not_le.mp hv
      have hvdiv : v / wordBits < s.bitv.storage.length := by
        simp only [wordBits] at hvlt ⊢
        omega
      have hbitf : (s.bitv.storage.getD (v / wordBits) 0).testBit
          (v % wordBits) = false := by
        have hcc := hc'
        rw [contains_eq_decide, decide_eq_true hvlt, Bool.true_and] at hcc
        exact hcc
      have heq : s.insert v = (⟨(s.size + 1) % wordMod,
          BigBitv.set ⟨s.bitv.storage⟩ v true⟩, true) := by
        simp only [BitvSet.insert, hc', Bool.false_eq_true, if_false,
          if_neg hv]
      rw [heq]
      dsimp only
      rw [bigSet_true_storage]
      dsimp only
      have hset := popcountTotal_set s.bitv.storage (v / wordBits)
        (s.bitv.storage.getD (v / wordBits) 0 ||| 1 <<< (v % wordBits)) hvdiv
      have hor := nbitsFn_or (s.bitv.storage.getD (v / wordBits) 0)
        (v % wordBits) (Nat.mod_lt v (by norm_num [wordBits])) hbitf
      rw [wordMod_lit] at ih ⊢
      omega

theorem remove_preserves (s : BitvSet) (v : Nat)
    (ih : s.size = popcountTotal s.bitv.storage % wordMod) :
    (s.remove v).1.size =
      popcountTotal (s.remove v).1.bitv.storage % wordMod := by
  by_cases hc : s.contains v = true
  · obtain ⟨hvlt, hbit⟩ : v < s.bitv.storage.length * wordBits ∧
        (s.bitv.storage.getD (v / wordBits) 0).testBit (v % wordBits) =
          true := by
      have hh := hc
      rw [contains_eq_decide, Bool.and_eq_true, decide_eq_true_eq] at hh
      exact hh
    have hvdiv : v / wordBits < s.bitv.storage.length := by
      simp only [wordBits] at hvlt ⊢
      omega
    rw [remove_eq_of_contains s v hc]
    dsimp only
    set st := (s.bitv.set v false).storage with hstdef
    have hstor : st = s.bitv.storage.set (v / wordBits)
        (s.bitv.storage.getD (v / wordBits) 0 &&&
          ucompl (1 <<< (v % wordBits))) := bigSet_false_storage s.bitv v
    have hset := popcountTotal_set s.bitv.storage (v / wordBits)
      (s.bitv.storage.getD (v / wordBits) 0 &&&
        ucompl (1 <<< (v % wordBits))) hvdiv
    have handc := nbitsFn_andc (s.bitv.storage.getD (v / wordBits) 0)
      (v % wordBits) (Nat.mod_lt v (by norm_num [wordBits])) hbit
    have hPst : popcountTotal st + 1 = popcountTotal s.bitv.storage := by
      rw [hstor]
      omega
    have htakeP : popcountTotal (st.take (shrinkIdx st st.length)) =
        popcountTotal st :=
      popcountTotal_take_of_zero_tail st _
        (fun j hj1 hj2 => shrinkIdx_zero_tail st st.length j hj1 hj2)
    rw [htakeP, wordMod_lit] at *
    omega
  · have hc' : s.contains v = false := Bool.eq_false_iff.mpr hc
    rw [BitvSet.remove, if_pos (by rw [hc']; rfl)]
    exact ih

theorem reachable_size_modEq (s : BitvSet) (h : ReachableSet s) :
    s.size = popcountTotal s.bitv.storage % wordMod := by
  induction h with
  | new => decide
  | from_bitv b hclean =>
    show b.onesCnt % wordMod = popcountTotal b.storageWords % wordMod
    rw [hclean]
  | insert s v hr ih => exact insert_preserves s v ih
  | remove s v hr ih => exact remove_preserves s v ih
  | union_with s other hr ih =>
    exact other_op_preserves s other (fun w1 w2 => w1 ||| w2) ih
  | intersect_with s other hr ih =>
    exact other_op_preserves s other (fun w1 w2 => w1 &&& w2) ih
  | difference_with s other hr ih =>
    exact other_op_preserves s other (fun w1 w2 => w1 &&& ucompl w2) ih
  | symmetric_difference_with s other hr ih =>
    exact other_op_preserves s other (fun w1 w2 => w1 ^^^ w2) ih
  | clear s hr ih =>
    show (0:Nat) = popcountTotal (s.bitv.storage.map fun _ => 0) % wordMod
    rw [popcountTotal_map_zero, Nat.zero_mod]

/-- C3 counterexample: `from_bitv` applied to `Bitv::new(3, true)` — one
reachable construction step — takes ownership of the raw all-ones word while
counting only the 3 logical ones, so `len()` is 3 but the true popcount of
the underlying storage is 64. -/
theorem from_bitv_len_ne_popcount :
    (BitvSet.from_bitv (Bitv.new 3 true)).len = 3 ∧
    popcountTotal (BitvSet.from_bitv (Bitv.new 3 true)).bitv.storage = 64 ∧
    (BitvSet.from_bitv (Bitv.new 3 true)).len ≠
      popcountTotal (BitvSet.from_bitv (Bitv.new 3 true)).bitv.storage :=
  ⟨by decide, by decide, by decide⟩

/-- C3 (amended): for every growable bit set reachable by any sequence of
`new`, `insert`, `remove`, `union_with`, `intersect_with`, `difference_with`,
`symmetric_difference_with`, `clear`, and `from_bitv` restricted to bit
vectors with no set bits beyond `nbits` (tail-clean), the cached size field
returned by `len()` equals the total popcount of the underlying word storage
reduced modulo `2^64` — hence equals the popcount exactly whenever the
popcount is representable as a machine word. -/
theorem bitvset_len_spec (s : BitvSet) (h : ReachableSet s) :
    s.len = popcountTotal s.bitv.storage % wordMod ∧
    (popcountTotal s.bitv.storage < wordMod →
      s.len = popcountTotal s.bitv.storage) := by
  have hm := reachable_size_modEq s h
  exact ⟨hm, fun hlt => by
    show s.size = _
    rw [hm, Nat.mod_eq_of_lt hlt]⟩

/-- C3 witness: the amended invariant instantiated at the reachable set
`{3, 200}` built by two inserts from the empty set. -/
theorem bitvset_len_spec_witness :
    ((BitvSet.new.insert 3).1.insert 200).1.len =
      popcountTotal ((BitvSet.new.insert 3).1.insert 200).1.bitv.storage %
        wordMod ∧
    (popcountTotal ((BitvSet.new.insert 3).1.insert 200).1.bitv.storage <
        wordMod →
      ((BitvSet.new.insert 3).1.insert 200).1.len =
        popcountTotal ((BitvSet.new.insert 3).1.insert 200).1.bitv.storage) :=
  bitvset_len_spec _
    (ReachableSet.insert _ 200 (ReachableSet.insert _ 3 ReachableSet.new))
